import Mathlib

/-!
# Verification of the youspotter sync & download orchestrator

A shallow embedding of the parts of the `youspotter` code base that the
specification's claims are about:

* `youspotter/utils/matching.py` — text normalisation, Levenshtein
  similarity, fuzzy/strict song matching;
* `youspotter/queue.py` — identity keys;
* `youspotter/storage.py` — catalog rows, upsert, failure backoff,
  disk reconciliation;
* `youspotter/sync_service.py` — live queue operations and the download
  worker's outcome handling;
* `youspotter/sync_lock.py` — the single-flight sync lock;
* `youspotter/utils/path_template.py` — the path-template regex.

Python strings are modelled as `List Char`; integers as `Int`/`Nat`;
SQL rows as structures and tables as lists of rows; `NULL`able columns as
`Option`.  Unicode NFKD decomposition (`unicodedata.normalize('NFKD', ·)`)
is kept as an explicit function parameter `nfkd`; theorems that need a
property of it (ASCII text is NFKD-invariant) take that property as a
hypothesis.
-/

namespace YouSpotter

abbrev Str := List Char

/-- The whitespace characters of Python's `str.strip()` and of the regex
class `\s`, restricted to ASCII (everything reaching these helpers in
`normalize_text` is ASCII after the `encode('ascii','ignore')` step). -/
def isPySpace (c : Char) : Bool :=
  c == ' ' || c == '\t' || c == '\n' || c == '\r' || c == '\x0b' || c == '\x0c' ||
  c == '\x1c' || c == '\x1d' || c == '\x1e' || c == '\x1f'

/-- `str.lstrip()` on ASCII text. -/
def lstripWs (s : Str) : Str := s.dropWhile isPySpace

/-- `str.rstrip()` on ASCII text. -/
def rstripWs (s : Str) : Str := (s.reverse.dropWhile isPySpace).reverse

/-- Python `str.strip()` on ASCII text. -/
def stripWs (s : Str) : Str := rstripWs (lstripWs s)

/-- `str.lower()` for a character, after the pipeline has discarded all
non-ASCII characters (codes 65–90 are `A`–`Z`). -/
def asciiLower (c : Char) : Char :=
  if 65 ≤ c.toNat ∧ c.toNat ≤ 90 then Char.ofNat (c.toNat + 32) else c

/-- A character matched by the class `[a-z0-9]` (codes 97–122 and 48–57). -/
def isLowerAlnum (c : Char) : Bool :=
  (97 ≤ c.toNat && c.toNat ≤ 122) || (48 ≤ c.toNat && c.toNat ≤ 57)

/-- The scan of the lazy group `.*?` followed by the literal `cl`: returns
the remainder after the first `cl` reachable without crossing a newline
(`.` does not match a newline). -/
def lazyUpto (cl : Char) : Str → Option Str
  | [] => none
  | c :: rest =>
    if c = cl then some rest
    else if c = '\n' then none
    else lazyUpto cl rest

/-- Head-anchored match of `\s*⟨op⟩feat\..*?⟨cl⟩` (the patterns
`\s*\(feat\..*?\)` and `\s*\[feat\..*?\]` of `FEAT_PATTERNS`); returns the
remainder of the string after the match. -/
def matchFeatBracket (op cl : Char) (s : Str) : Option Str :=
  match s.dropWhile isPySpace with
  | o :: f :: e :: a :: t :: d :: rest =>
    if o = op ∧ f = 'f' ∧ e = 'e' ∧ a = 'a' ∧ t = 't' ∧ d = '.' then
      lazyUpto cl rest
    else none
  | _ => none

/-- Head-anchored match of `\s*feat\..*$` (the third `FEAT_PATTERNS`
entry).  `.*` cannot cross a newline and `$` matches at the end of the
string or just before a final newline. -/
def matchFeatTail (s : Str) : Option Str :=
  match s.dropWhile isPySpace with
  | f :: e :: a :: t :: d :: rest =>
    if f = 'f' ∧ e = 'e' ∧ a = 'a' ∧ t = 't' ∧ d = '.' then
      if '\n' ∈ rest then
        if rest.getLast? = some '\n' ∧ '\n' ∉ rest.dropLast then some ['\n']
        else none
      else some []
    else none
  | _ => none

/-- One left-to-right pass of `re.sub(pat, '', txt)`: at each position try
the head-anchored matcher `f`; on a match continue after it, otherwise
keep the character.  The fuel argument only serves structural recursion;
`fuel ≥ s.length` is always enough because a match consumes at least one
character. -/
def subScan (f : Str → Option Str) : Nat → Str → Str
  | 0, _ => []
  | _ + 1, [] => []
  | fuel + 1, c :: rest =>
    match f (c :: rest) with
    | some rem => subScan f fuel rem
    | none => c :: subScan f fuel rest

/-- `re.sub(r"\s*\(feat\..*?\)", '', s)`. -/
def sub_feat_paren (s : Str) : Str := subScan (matchFeatBracket '(' ')') s.length s

/-- `re.sub(r"\s*\[feat\..*?\]", '', s)`. -/
def sub_feat_bracket (s : Str) : Str := subScan (matchFeatBracket '[' ']') s.length s

/-- `re.sub(r"\s*feat\..*$", '', s)`. -/
def sub_feat_tail (s : Str) : Str := subScan matchFeatTail s.length s

/-- `re.sub(r"[^a-z0-9\s]", " ", s)`. -/
def nonAlnumToSpace (s : Str) : Str :=
  s.map (fun c => if isLowerAlnum c || isPySpace c then c else ' ')

/-- Replace every maximal run of whitespace by a single `' '`
(`re.sub(r"\s+", " ", s)`).  The flag records whether the scan is inside a
run whose `' '` has already been emitted. -/
def collapseRunsAux : Bool → Str → Str
  | _, [] => []
  | inRun, c :: rest =>
    if isPySpace c then
      if inRun then collapseRunsAux true rest
      else ' ' :: collapseRunsAux true rest
    else c :: collapseRunsAux false rest

def collapseRuns (s : Str) : Str := collapseRunsAux false s

/-- `normalize_text` from `youspotter/utils/matching.py`, parametric in the
NFKD decomposition: NFKD, drop non-ASCII, lowercase, strip the three
"feat." patterns (stripping whitespace after each), replace every
character outside `[a-z0-9\s]` by a space, collapse whitespace, strip. -/
def normalize_text (nfkd : Str → Str) (s : Str) : Str :=
  let t1 := (nfkd s).filter (fun c => decide (c.toNat < 128))
  let t2 := t1.map asciiLower
  let t3 := stripWs (sub_feat_paren t2)
  let t4 := stripWs (sub_feat_bracket t3)
  let t5 := stripWs (sub_feat_tail t4)
  stripWs (collapseRuns (nonAlnumToSpace t5))

/-! ### Idempotence of `normalize_text` (claim C9) -/

/-- No two adjacent whitespace characters. -/
def noDoubleSpace : Str → Bool
  | [] => true
  | [_] => true
  | a :: b :: rest => !(isPySpace a && isPySpace b) && noDoubleSpace (b :: rest)

/-- A character that can appear in the output of `normalize_text`. -/
def isCanonChar (c : Char) : Bool := isLowerAlnum c || c == ' '

theorem noDoubleSpace_tail {c : Char} {s : Str} (h : noDoubleSpace (c :: s)) :
    noDoubleSpace s := by
  cases s with
  | nil => rfl
  | cons b rest => exact (Bool.and_eq_true _ _ |>.mp h).2

theorem noDoubleSpace_cons_of_not_space {c : Char} {s : Str}
    (hc : isPySpace c = false) (h : noDoubleSpace s) : noDoubleSpace (c :: s) := by
  cases s with
  | nil => rfl
  | cons b rest => simp [noDoubleSpace, hc, h]

theorem noDoubleSpace_cons_of_head {c : Char} {s : Str}
    (hh : ∀ d, s.head? = some d → isPySpace d = false) (h : noDoubleSpace s) :
    noDoubleSpace (c :: s) := by
  cases s with
  | nil => rfl
  | cons b rest => simp [noDoubleSpace, hh b rfl, h]

theorem mem_of_mem_dropWhile {p : Char → Bool} {c : Char} :
    ∀ {s : Str}, c ∈ s.dropWhile p → c ∈ s := by
  intro s h
  induction s with
  | nil => simp [List.dropWhile] at h
  | cons a rest ih =>
    rw [List.dropWhile_cons] at h
    by_cases hp : p a = true
    · simp only [hp, if_true] at h
      exact List.mem_cons_of_mem a (ih h)
    · simpa [hp] using h

theorem head_dropWhile_not {p : Char → Bool} {c : Char} :
    ∀ {s : Str}, (s.dropWhile p).head? = some c → p c = false := by
  intro s h
  induction s with
  | nil => simp [List.dropWhile] at h
  | cons a rest ih =>
    rw [List.dropWhile_cons] at h
    by_cases hp : p a = true
    · rw [if_pos hp] at h
      exact ih h
    · rw [if_neg hp] at h
      simp only [List.head?_cons, Option.some.injEq] at h
      subst h
      simpa using hp

theorem noDoubleSpace_dropWhile {p : Char → Bool} :
    ∀ {s : Str}, noDoubleSpace s → noDoubleSpace (s.dropWhile p) := by
  intro s h
  induction s with
  | nil => exact h
  | cons a rest ih =>
    rw [List.dropWhile_cons]
    by_cases hp : p a = true
    · simpa [hp] using ih (noDoubleSpace_tail h)
    · simpa [hp] using h

theorem noDoubleSpace_append_left :
    ∀ {s t : Str}, noDoubleSpace (s ++ t) → noDoubleSpace s := by
  intro s t h
  induction s with
  | nil => rfl
  | cons a rest ih =>
    cases rest with
    | nil => rfl
    | cons b r =>
      simp only [List.cons_append, noDoubleSpace, Bool.and_eq_true] at h ⊢
      exact ⟨h.1, ih h.2⟩

/-- `rstripWs` keeps a prefix of the string. -/
theorem rstripWs_append (s : Str) :
    ∃ t : Str, s = rstripWs s ++ t := by
  refine ⟨(s.reverse.takeWhile isPySpace).reverse, ?_⟩
  unfold rstripWs
  have h := List.takeWhile_append_dropWhile isPySpace s.reverse
  calc s = s.reverse.reverse := (List.reverse_reverse s).symm
    _ = (List.takeWhile isPySpace s.reverse ++ List.dropWhile isPySpace s.reverse).reverse := by
        rw [h]
    _ = (List.dropWhile isPySpace s.reverse).reverse ++ (List.takeWhile isPySpace s.reverse).reverse := by
        rw [List.reverse_append]

theorem mem_rstripWs {c : Char} {s : Str} (h : c ∈ rstripWs s) : c ∈ s := by
  obtain ⟨t, ht⟩ := rstripWs_append s
  rw [ht]
  exact List.mem_append_left t h

theorem noDoubleSpace_rstripWs {s : Str} (h : noDoubleSpace s) :
    noDoubleSpace (rstripWs s) := by
  obtain ⟨t, ht⟩ := rstripWs_append s
  rw [ht] at h
  exact noDoubleSpace_append_left h

theorem getLast_rstripWs_not_space {c : Char} {s : Str}
    (h : (rstripWs s).getLast? = some c) : isPySpace c = false := by
  unfold rstripWs at h
  rw [List.getLast?_reverse] at h
  exact head_dropWhile_not h

theorem head_stripWs_not_space {c : Char} {s : Str}
    (h : (stripWs s).head? = some c) : isPySpace c = false := by
  unfold stripWs at h
  obtain ⟨t, ht⟩ := rstripWs_append (lstripWs s)
  have hl : (lstripWs s).head? = some c := by
    rw [ht]
    cases hr : rstripWs (lstripWs s) with
    | nil => rw [hr] at h; simp at h
    | cons d r =>
      rw [hr] at h
      simp only [List.head?_cons, Option.some.injEq] at h
      rw [List.cons_append, List.head?_cons, h]
  exact head_dropWhile_not hl

theorem mem_stripWs {c : Char} {s : Str} (h : c ∈ stripWs s) : c ∈ s :=
  mem_of_mem_dropWhile (mem_rstripWs h)

theorem noDoubleSpace_stripWs {s : Str} (h : noDoubleSpace s) :
    noDoubleSpace (stripWs s) :=
  noDoubleSpace_rstripWs (noDoubleSpace_dropWhile h)

/-- Identity of the strips on canonical-edged strings. -/
theorem lstripWs_eq_self {s : Str}
    (h : ∀ c, s.head? = some c → isPySpace c = false) : lstripWs s = s := by
  unfold lstripWs
  cases s with
  | nil => rfl
  | cons a rest => rw [List.dropWhile_cons, h a rfl]; simp

theorem rstripWs_eq_self {s : Str}
    (h : ∀ c, s.getLast? = some c → isPySpace c = false) : rstripWs s = s := by
  unfold rstripWs
  have : s.reverse.dropWhile isPySpace = s.reverse := by
    cases hr : s.reverse with
    | nil => rfl
    | cons a rest =>
      rw [List.dropWhile_cons, h a (by rw [← List.head?_reverse, hr]; rfl)]
      simp
  rw [this, List.reverse_reverse]

theorem stripWs_eq_self {s : Str}
    (hh : ∀ c, s.head? = some c → isPySpace c = false)
    (hl : ∀ c, s.getLast? = some c → isPySpace c = false) : stripWs s = s := by
  unfold stripWs
  rw [lstripWs_eq_self hh, rstripWs_eq_self hl]

theorem map_id_of_forall {f : Char → Char} :
    ∀ {s : Str}, (∀ c ∈ s, f c = c) → s.map f = s := by
  intro s h
  induction s with
  | nil => rfl
  | cons a rest ih =>
    rw [List.map_cons, h a (List.mem_cons_self a rest),
      ih fun c hc => h c (List.mem_cons_of_mem a hc)]

theorem pySpace_toNat {c : Char} (h : isPySpace c = true) :
    c.toNat = 32 ∨ c.toNat = 9 ∨ c.toNat = 10 ∨ c.toNat = 13 ∨ c.toNat = 11 ∨
    c.toNat = 12 ∨ c.toNat = 28 ∨ c.toNat = 29 ∨ c.toNat = 30 ∨ c.toNat = 31 := by
  simp only [isPySpace, Bool.or_eq_true, beq_iff_eq] at h
  rcases h with ((((((((rfl | rfl) | rfl) | rfl) | rfl) | rfl) | rfl) | rfl) | rfl) | rfl <;>
    simp

theorem canonChar_space {c : Char} (hc : isCanonChar c = true)
    (hs : isPySpace c = true) : c = ' ' := by
  simp only [isCanonChar, Bool.or_eq_true] at hc
  rcases hc with hc | hc
  · exfalso
    simp only [isLowerAlnum, Bool.or_eq_true, Bool.and_eq_true, decide_eq_true_eq] at hc
    rcases pySpace_toNat hs with h | h | h | h | h | h | h | h | h | h <;> omega
  · exact beq_iff_eq.mp hc

theorem canonChar_not_dot {c : Char} (hc : isCanonChar c = true) : c ≠ '.' := by
  rintro rfl
  exact absurd hc (by decide)

theorem canonChar_lt_128 {c : Char} (hc : isCanonChar c = true) : c.toNat < 128 := by
  simp only [isCanonChar, Bool.or_eq_true, beq_iff_eq] at hc
  rcases hc with hc | rfl
  · simp only [isLowerAlnum, Bool.or_eq_true, Bool.and_eq_true, decide_eq_true_eq] at hc
    omega
  · decide

theorem canonChar_lower_id {c : Char} (hc : isCanonChar c = true) :
    asciiLower c = c := by
  simp only [isCanonChar, Bool.or_eq_true, beq_iff_eq] at hc
  unfold asciiLower
  rcases hc with hc | rfl
  · simp only [isLowerAlnum, Bool.or_eq_true, Bool.and_eq_true, decide_eq_true_eq] at hc
    rw [if_neg (by omega)]
  · rfl

theorem canonChar_not_space_of_lower {c : Char} (hc : isLowerAlnum c = true) :
    isPySpace c = false := by
  simp only [isLowerAlnum, Bool.or_eq_true, Bool.and_eq_true, decide_eq_true_eq] at hc
  by_contra h
  have hs : isPySpace c = true := by revert h; cases isPySpace c <;> simp
  rcases pySpace_toNat hs with h' | h' | h' | h' | h' | h' | h' | h' | h' | h' <;> omega

/-! Properties of `collapseRuns`. -/

theorem collapseRunsAux_nil (b : Bool) : collapseRunsAux b [] = [] := by
  cases b <;> rfl

theorem collapseRunsAux_cons_space_true {a : Char} {rest : Str}
    (h : isPySpace a = true) :
    collapseRunsAux true (a :: rest) = collapseRunsAux true rest := by
  simp [collapseRunsAux, h]

theorem collapseRunsAux_cons_space_false {a : Char} {rest : Str}
    (h : isPySpace a = true) :
    collapseRunsAux false (a :: rest) = ' ' :: collapseRunsAux true rest := by
  simp [collapseRunsAux, h]

theorem collapseRunsAux_cons_not_space (b : Bool) {a : Char} {rest : Str}
    (h : isPySpace a = false) :
    collapseRunsAux b (a :: rest) = a :: collapseRunsAux false rest := by
  cases b <;> simp [collapseRunsAux, h]

theorem mem_collapseRunsAux {c : Char} :
    ∀ (s : Str) (b : Bool), c ∈ collapseRunsAux b s →
      c = ' ' ∨ (c ∈ s ∧ isPySpace c = false) := by
  intro s
  induction s with
  | nil => intro b h; rw [collapseRunsAux_nil] at h; simp at h
  | cons a rest ih =>
    intro b h
    by_cases hs : isPySpace a = true
    · cases b with
      | true =>
        rw [collapseRunsAux_cons_space_true hs] at h
        rcases ih true h with h' | ⟨hm, hns⟩
        · exact Or.inl h'
        · exact Or.inr ⟨List.mem_cons_of_mem a hm, hns⟩
      | false =>
        rw [collapseRunsAux_cons_space_false hs] at h
        rcases List.mem_cons.mp h with rfl | h'
        · exact Or.inl rfl
        · rcases ih true h' with h'' | ⟨hm, hns⟩
          · exact Or.inl h''
          · exact Or.inr ⟨List.mem_cons_of_mem a hm, hns⟩
    · have hs' : isPySpace a = false := by revert hs; cases isPySpace a <;> simp
      rw [collapseRunsAux_cons_not_space b hs'] at h
      rcases List.mem_cons.mp h with rfl | h'
      · exact Or.inr ⟨List.mem_cons_self _ _, hs'⟩
      · rcases ih false h' with h'' | ⟨hm, hns⟩
        · exact Or.inl h''
        · exact Or.inr ⟨List.mem_cons_of_mem a hm, hns⟩

theorem collapseRunsAux_true_head {c : Char} :
    ∀ (s : Str), (collapseRunsAux true s).head? = some c → isPySpace c = false := by
  intro s
  induction s with
  | nil => intro h; rw [collapseRunsAux_nil] at h; simp at h
  | cons a rest ih =>
    intro h
    by_cases hs : isPySpace a = true
    · rw [collapseRunsAux_cons_space_true hs] at h
      exact ih h
    · have hs' : isPySpace a = false := by revert hs; cases isPySpace a <;> simp
      rw [collapseRunsAux_cons_not_space true hs'] at h
      simp only [List.head?_cons, Option.some.injEq] at h
      subst h
      exact hs'

theorem noDoubleSpace_collapseRunsAux :
    ∀ (s : Str), noDoubleSpace (collapseRunsAux false s) ∧
      noDoubleSpace (collapseRunsAux true s) := by
  intro s
  induction s with
  | nil => exact ⟨rfl, rfl⟩
  | cons a rest ih =>
    by_cases hs : isPySpace a = true
    · rw [collapseRunsAux_cons_space_false hs, collapseRunsAux_cons_space_true hs]
      refine ⟨?_, ih.2⟩
      exact noDoubleSpace_cons_of_head (fun d hd => collapseRunsAux_true_head rest hd) ih.2
    · have hs' : isPySpace a = false := by revert hs; cases isPySpace a <;> simp
      rw [collapseRunsAux_cons_not_space false hs', collapseRunsAux_cons_not_space true hs']
      exact ⟨noDoubleSpace_cons_of_not_space hs' ih.1,
        noDoubleSpace_cons_of_not_space hs' ih.1⟩

theorem collapseRunsAux_true_eq_false {s : Str}
    (h : ∀ c, s.head? = some c → isPySpace c = false) :
    collapseRunsAux true s = collapseRunsAux false s := by
  cases s with
  | nil => rfl
  | cons a rest =>
    rw [collapseRunsAux_cons_not_space true (h a rfl),
      collapseRunsAux_cons_not_space false (h a rfl)]

theorem collapseRunsAux_false_id :
    ∀ (s : Str), (∀ c ∈ s, isCanonChar c = true) → noDoubleSpace s →
      collapseRunsAux false s = s := by
  intro s
  induction s with
  | nil => intro _ _; rfl
  | cons a rest ih =>
    intro hchars hnd
    by_cases hs : isPySpace a = true
    · rw [collapseRunsAux_cons_space_false hs]
      have ha : a = ' ' := canonChar_space (hchars a (List.mem_cons_self a rest)) hs
      have hhead : ∀ c, rest.head? = some c → isPySpace c = false := by
        intro c hc
        cases rest with
        | nil => simp at hc
        | cons b r =>
          simp only [List.head?_cons, Option.some.injEq] at hc
          subst hc
          simp only [noDoubleSpace, Bool.and_eq_true, Bool.not_eq_true',
            Bool.and_eq_false_iff] at hnd
          rcases hnd.1 with h' | h'
          · rw [hs] at h'; exact absurd h' (by simp)
          · exact h'
      rw [collapseRunsAux_true_eq_false hhead,
        ih (fun c hc => hchars c (List.mem_cons_of_mem a hc)) (noDoubleSpace_tail hnd), ha]
    · have hs' : isPySpace a = false := by revert hs; cases isPySpace a <;> simp
      rw [collapseRunsAux_cons_not_space false hs']
      rw [ih (fun c hc => hchars c (List.mem_cons_of_mem a hc)) (noDoubleSpace_tail hnd)]

/-! The "feat." substitutions do nothing to a string without a dot. -/

theorem matchFeatBracket_eq_none {op cl : Char} {s : Str} (h : '.' ∉ s) :
    matchFeatBracket op cl s = none := by
  unfold matchFeatBracket
  split
  · rename_i o f e a t d rest heq
    rw [if_neg]
    intro hc
    obtain ⟨-, -, -, -, -, hd⟩ := hc
    subst hd
    exact h (mem_of_mem_dropWhile (p := isPySpace) (by rw [heq]; simp))
  · rfl

theorem matchFeatTail_eq_none {s : Str} (h : '.' ∉ s) :
    matchFeatTail s = none := by
  unfold matchFeatTail
  split
  · rename_i f e a t d rest heq
    rw [if_neg]
    intro hc
    obtain ⟨-, -, -, -, hd⟩ := hc
    subst hd
    exact h (mem_of_mem_dropWhile (p := isPySpace) (by rw [heq]; simp))
  · rfl

theorem subScan_id {f : Str → Option Str} (hf : ∀ t : Str, '.' ∉ t → f t = none) :
    ∀ (fuel : Nat) (s : Str), s.length ≤ fuel → '.' ∉ s → subScan f fuel s = s := by
  intro fuel
  induction fuel with
  | zero =>
    intro s hlen _
    rw [List.length_eq_zero.mp (Nat.le_zero.mp hlen)]
    rfl
  | succ n ih =>
    intro s hlen hdot
    cases s with
    | nil => rfl
    | cons c rest =>
      have hlen' : rest.length ≤ n := by
        simp only [List.length_cons] at hlen
        omega
      have hdot' : '.' ∉ rest := fun hm => hdot (List.mem_cons_of_mem c hm)
      simp only [subScan, hf (c :: rest) hdot]
      rw [ih rest hlen' hdot']

theorem sub_feat_paren_id {s : Str} (h : '.' ∉ s) : sub_feat_paren s = s :=
  subScan_id (fun _ ht => matchFeatBracket_eq_none ht) s.length s le_rfl h

theorem sub_feat_bracket_id {s : Str} (h : '.' ∉ s) : sub_feat_bracket s = s :=
  subScan_id (fun _ ht => matchFeatBracket_eq_none ht) s.length s le_rfl h

theorem sub_feat_tail_id {s : Str} (h : '.' ∉ s) : sub_feat_tail s = s :=
  subScan_id (fun _ ht => matchFeatTail_eq_none ht) s.length s le_rfl h

/-! Canonical shape of `normalize_text` output, and identity on it. -/

theorem mem_nonAlnumToSpace {c : Char} {s : Str} (h : c ∈ nonAlnumToSpace s) :
    c = ' ' ∨ (isLowerAlnum c || isPySpace c) = true := by
  unfold nonAlnumToSpace at h
  obtain ⟨d, _, hd⟩ := List.mem_map.mp h
  by_cases hcond : (isLowerAlnum d || isPySpace d) = true
  · rw [if_pos hcond] at hd
    subst hd
    exact Or.inr hcond
  · rw [if_neg hcond] at hd
    exact Or.inl hd.symm

theorem normalize_text_eq (nfkd : Str → Str) (s : Str) :
    normalize_text nfkd s =
      stripWs (collapseRuns (nonAlnumToSpace (stripWs (sub_feat_tail (stripWs
        (sub_feat_bracket (stripWs (sub_feat_paren
          (((nfkd s).filter (fun c => decide (c.toNat < 128))).map asciiLower))))))))) := rfl

theorem lastStage_canon (t : Str) :
    (∀ c ∈ stripWs (collapseRuns (nonAlnumToSpace t)), isCanonChar c = true)
    ∧ noDoubleSpace (stripWs (collapseRuns (nonAlnumToSpace t)))
    ∧ (∀ c, (stripWs (collapseRuns (nonAlnumToSpace t))).head? = some c →
        isPySpace c = false)
    ∧ (∀ c, (stripWs (collapseRuns (nonAlnumToSpace t))).getLast? = some c →
        isPySpace c = false) := by
  refine ⟨?_, ?_, ?_, ?_⟩
  · intro c hc
    have hc1 := mem_stripWs hc
    rw [collapseRuns] at hc1
    rcases mem_collapseRunsAux _ false hc1 with rfl | ⟨hm, hns⟩
    · decide
    · rcases mem_nonAlnumToSpace hm with rfl | halnum
      · decide
      · rcases Bool.or_eq_true _ _ |>.mp halnum with h' | h'
        · simp [isCanonChar, h']
        · rw [h'] at hns; exact absurd hns (by simp)
  · rw [collapseRuns]
    exact noDoubleSpace_stripWs (noDoubleSpace_collapseRunsAux _).1
  · intro c hc
    exact head_stripWs_not_space hc
  · intro c hc
    exact getLast_rstripWs_not_space hc

theorem normalize_text_canon (nfkd : Str → Str) (s : Str) :
    (∀ c ∈ normalize_text nfkd s, isCanonChar c = true)
    ∧ noDoubleSpace (normalize_text nfkd s)
    ∧ (∀ c, (normalize_text nfkd s).head? = some c → isPySpace c = false)
    ∧ (∀ c, (normalize_text nfkd s).getLast? = some c → isPySpace c = false) := by
  rw [normalize_text_eq]
  exact lastStage_canon _

theorem normalize_text_canon_id (nfkd : Str → Str) {s : Str}
    (hk : nfkd s = s)
    (hchars : ∀ c ∈ s, isCanonChar c = true)
    (hnd : noDoubleSpace s)
    (hh : ∀ c, s.head? = some c → isPySpace c = false)
    (hl : ∀ c, s.getLast? = some c → isPySpace c = false) :
    normalize_text nfkd s = s := by
  have hdot : '.' ∉ s := fun hm => canonChar_not_dot (hchars '.' hm) rfl
  have hfilter : s.filter (fun c => decide (c.toNat < 128)) = s :=
    List.filter_eq_self.mpr fun c hc => by
      simpa using canonChar_lt_128 (hchars c hc)
  have hmap : s.map asciiLower = s :=
    map_id_of_forall fun c hc => canonChar_lower_id (hchars c hc)
  have hna : nonAlnumToSpace s = s :=
    map_id_of_forall fun c hc => by
      have := hchars c hc
      simp only [isCanonChar, Bool.or_eq_true, beq_iff_eq] at this
      rcases this with h' | rfl
      · rw [if_pos (by simp [h'])]
      · rw [if_pos (by simp [isPySpace])]
  have hstrip : stripWs s = s := stripWs_eq_self hh hl
  rw [normalize_text_eq, hk, hfilter, hmap, sub_feat_paren_id hdot, hstrip,
    sub_feat_bracket_id hdot, hstrip, sub_feat_tail_id hdot, hstrip, hna,
    collapseRuns, collapseRunsAux_false_id s hchars hnd, hstrip]

/-- **C9.** Text normalisation is idempotent: for every string `s`,
`normalize_text (normalize_text s) = normalize_text s`, so identity keys
computed from already-normalised fields are stable.  The NFKD
decomposition is a parameter; the hypothesis states the true fact that
NFKD leaves strings of lowercase ASCII alphanumerics and spaces
unchanged — exactly the strings `normalize_text` can output. -/
theorem C9_normalize_text_idempotent (nfkd : Str → Str)
    (hk : ∀ t : Str, (∀ c ∈ t, isCanonChar c = true) → nfkd t = t) (s : Str) :
    normalize_text nfkd (normalize_text nfkd s) = normalize_text nfkd s := by
  obtain ⟨hchars, hnd, hh, hl⟩ := normalize_text_canon nfkd s
  exact normalize_text_canon_id nfkd (hk _ hchars) hchars hnd hh hl

/-- Witness for C9 at a concrete input (`nfkd` instantiated by the
identity, which is NFKD's behaviour on this ASCII string). -/
theorem C9_witness :
    (∀ t : Str, (∀ c ∈ t, isCanonChar c = true) → id t = t)
    ∧ normalize_text id (normalize_text id ("Queen (feat. X)!".toList)) =
        normalize_text id ("Queen (feat. X)!".toList) :=
  ⟨fun _ _ => rfl, C9_normalize_text_idempotent id (fun _ _ => rfl) _⟩

/-! ### Levenshtein distance and string similarity
(`levenshtein_distance`, `string_similarity` in `utils/matching.py`) -/

/-- The inner loop of the dynamic program: `prev` is the tail of
`previous_row` from the current column on (so `prev[0] = previous_row[j]`
and `prev[1] = previous_row[j+1]`), `left` is the entry most recently
appended to `current_row`; returns the remaining entries of
`current_row`. -/
def levRowAux (c1 : Char) : List Char → List Nat → Nat → List Nat
  | [], _, _ => []
  | _ :: _, [], _ => []
  | _ :: _, [_], _ => []
  | c2 :: cs, p0 :: p1 :: ps, left =>
    let v := min (p1 + 1) (min (left + 1) (p0 + (if c1 = c2 then 0 else 1)))
    v :: levRowAux c1 cs (p1 :: ps) v

/-- `current_row` for the character `c1`, with 1-based row index `r`
(`current_row = [i + 1]` before the inner loop). -/
def levRow (c1 : Char) (s2 : List Char) (prev : List Nat) (r : Nat) : List Nat :=
  r :: levRowAux c1 s2 prev r

/-- The final `previous_row` after the outer loop over `s1`. -/
def levRows (s1 s2 : List Char) : List Nat :=
  (s1.foldl (fun acc c1 => (levRow c1 s2 acc.1 (acc.2 + 1), acc.2 + 1))
    (List.range (s2.length + 1), 0)).1

/-- `levenshtein_distance` after the initial swap: handles the
`len(s2) == 0` early return, otherwise `previous_row[-1]`. -/
def levenshteinAux (s1 s2 : List Char) : Nat :=
  if s2.length = 0 then s1.length else (levRows s1 s2).getLast?.getD 0

/-- `levenshtein_distance` from `utils/matching.py` (the recursive swap
puts the longer string first). -/
def levenshtein_distance (s1 s2 : Str) : Nat :=
  if s1.length < s2.length then levenshteinAux s2 s1 else levenshteinAux s1 s2

/-- `string_similarity` from `utils/matching.py`, with rationals standing
for Python floats (all arithmetic here is exact). -/
def string_similarity (s1 s2 : Str) : ℚ :=
  if s1 = [] ∧ s2 = [] then 1
  else if s1 = [] ∨ s2 = [] then 0
  else 1 - (levenshtein_distance s1 s2 : ℚ) / (max s1.length s2.length : ℚ)

theorem levRowAux_length (c1 : Char) :
    ∀ (cs : List Char) (prev : List Nat) (left : Nat),
      prev.length = cs.length + 1 → (levRowAux c1 cs prev left).length = cs.length := by
  intro cs
  induction cs with
  | nil => intro prev left _; rfl
  | cons c2 cs ih =>
    intro prev left hlen
    match prev, hlen with
    | p0 :: p1 :: ps, hlen =>
      simp only [levRowAux, List.length_cons]
      rw [ih (p1 :: ps) _ (by simpa using hlen)]

theorem levRowAux_bound (c1 : Char) :
    ∀ (cs : List Char) (prev : List Nat) (left r off : Nat),
      prev.length = cs.length + 1 →
      (∀ j (h : j < prev.length), prev.get ⟨j, h⟩ ≤ max r (off + j)) →
      left ≤ max (r + 1) off →
      ∀ j (h : j < (levRowAux c1 cs prev left).length),
        (levRowAux c1 cs prev left).get ⟨j, h⟩ ≤ max (r + 1) (off + 1 + j) := by
  intro cs
  induction cs with
  | nil => intro prev left r off _ _ _ j h; simp [levRowAux] at h
  | cons c2 cs ih =>
    intro prev left r off hlen hprev hleft j h
    match prev, hlen with
    | p0 :: p1 :: ps, hlen =>
      have hp0 : p0 ≤ max r off := by
        have := hprev 0 (by simp)
        simpa using this
      have hsub : p0 + (if c1 = c2 then 0 else 1) ≤ max (r + 1) (off + 1) := by
        have : p0 + (if c1 = c2 then 0 else 1) ≤ p0 + 1 := by
          split <;> omega
        have hmax : max r off + 1 = max (r + 1) (off + 1) := by omega
        omega
      have hv : min (p1 + 1) (min (left + 1) (p0 + (if c1 = c2 then 0 else 1))) ≤
          max (r + 1) (off + 1) :=
        le_trans (le_trans (min_le_right _ _) (min_le_right _ _)) hsub
      cases j with
      | zero => simpa [levRowAux] using hv
      | succ j' =>
        simp only [levRowAux, List.get_cons_succ] at h ⊢
        have hrec := ih (p1 :: ps) _ r (off + 1) (by simpa using hlen)
          (fun k hk => by
            have := hprev (k + 1) (by simpa using Nat.succ_lt_succ (by simpa using hk))
            simp only [List.get_cons_succ] at this
            have harith : off + (k + 1) = off + 1 + k := by omega
            rw [← harith]
            exact this)
          hv j' (by simpa using h)
        have harith : off + 1 + 1 + j' = off + 1 + (j' + 1) := by omega
        rw [← harith]
        exact hrec

theorem levRows_spec (s2 : List Char) :
    ∀ (s1 : List Char) (acc : List Nat) (i : Nat),
      acc.length = s2.length + 1 →
      (∀ j (h : j < acc.length), acc.get ⟨j, h⟩ ≤ max i j) →
      ((s1.foldl (fun acc c1 => (levRow c1 s2 acc.1 (acc.2 + 1), acc.2 + 1))
          (acc, i)).1.length = s2.length + 1
       ∧ ∀ j (h : j < (s1.foldl (fun acc c1 => (levRow c1 s2 acc.1 (acc.2 + 1), acc.2 + 1))
            (acc, i)).1.length),
          (s1.foldl (fun acc c1 => (levRow c1 s2 acc.1 (acc.2 + 1), acc.2 + 1))
            (acc, i)).1.get ⟨j, h⟩ ≤ max (i + s1.length) j) := by
  intro s1
  induction s1 with
  | nil =>
    intro acc i hlen hbnd
    exact ⟨hlen, fun j h => by simpa using hbnd j h⟩
  | cons c1 cs1 ih =>
    intro acc i hlen hbnd
    simp only [List.foldl_cons]
    have hlen' : (levRow c1 s2 acc (i + 1)).length = s2.length + 1 := by
      simp only [levRow, List.length_cons]
      rw [levRowAux_length c1 s2 acc (i + 1) hlen]
    have hbnd' : ∀ j (h : j < (levRow c1 s2 acc (i + 1)).length),
        (levRow c1 s2 acc (i + 1)).get ⟨j, h⟩ ≤ max (i + 1) j := by
      intro j h
      cases j with
      | zero => simp [levRow]
      | succ j' =>
        simp only [levRow, List.get_cons_succ]
        have hb := levRowAux_bound c1 s2 acc (i + 1) i 0 hlen
          (fun k hk => by simpa using hbnd k hk) (by simp) j'
          (by simpa [levRow] using h)
        have harith : (0 : Nat) + 1 + j' = j' + 1 := by omega
        rw [harith] at hb
        simpa using hb
    have := ih (levRow c1 s2 acc (i + 1)) (i + 1) hlen' hbnd'
    refine ⟨this.1, fun j h => ?_⟩
    simp only [List.length_cons]
    have harith : i + (cs1.length + 1) = i + 1 + cs1.length := by omega
    rw [harith]
    exact this.2 j h

theorem mem_of_getLast_eq {α : Type} {x : α} :
    ∀ {l : List α}, l.getLast? = some x → x ∈ l := by
  intro l
  induction l with
  | nil => intro h; simp at h
  | cons a rest ih =>
    intro h
    cases rest with
    | nil =>
      simp only [List.getLast?_singleton, Option.some.injEq] at h
      simp [h]
    | cons b r =>
      rw [List.getLast?_cons_cons] at h
      exact List.mem_cons_of_mem a (ih h)

theorem getLast_getD_le {l : List Nat} {B : Nat} (h : ∀ x ∈ l, x ≤ B) :
    l.getLast?.getD 0 ≤ B := by
  cases hl : l.getLast? with
  | none => simp
  | some x =>
    simp only [Option.getD_some]
    exact h x (mem_of_getLast_eq hl)

theorem levenshteinAux_le (s1 s2 : List Char) :
    levenshteinAux s1 s2 ≤ max s1.length s2.length := by
  unfold levenshteinAux levRows
  split
  · exact le_max_left _ _
  · have hinit : ∀ j (h : j < (List.range (s2.length + 1)).length),
        (List.range (s2.length + 1)).get ⟨j, h⟩ ≤ max 0 j := by
      intro j h
      simp
    have hspec := levRows_spec s2 s1 (List.range (s2.length + 1)) 0
      (by simp) hinit
    refine getLast_getD_le fun x hx => ?_
    obtain ⟨⟨j, hj⟩, hget⟩ := List.mem_iff_get.mp hx
    have := hspec.2 j hj
    rw [hget] at this
    have hjle : j ≤ s2.length := by
      have := hspec.1
      omega
    calc x ≤ max (0 + s1.length) j := this
      _ ≤ max s1.length s2.length := by
          simp only [Nat.zero_add]
          exact max_le_max le_rfl hjle

theorem levenshtein_distance_le (s1 s2 : Str) :
    levenshtein_distance s1 s2 ≤ max s1.length s2.length := by
  unfold levenshtein_distance
  split
  · calc levenshteinAux s2 s1 ≤ max s2.length s1.length := levenshteinAux_le s2 s1
      _ = max s1.length s2.length := max_comm _ _
  · exact levenshteinAux_le s1 s2

/-- **C10.** `string_similarity` always lies in `[0, 1]`; it is `1.0` when
both strings are empty, and `0.0` when exactly one of them is empty. -/
theorem C10_string_similarity_range :
    (∀ s1 s2 : Str, 0 ≤ string_similarity s1 s2 ∧ string_similarity s1 s2 ≤ 1)
    ∧ string_similarity [] [] = 1
    ∧ (∀ (c : Char) (s : Str), string_similarity [] (c :: s) = 0)
    ∧ (∀ (c : Char) (s : Str), string_similarity (c :: s) [] = 0) := by
  refine ⟨?_, by simp [string_similarity], ?_, ?_⟩
  · intro s1 s2
    unfold string_similarity
    split
    · norm_num
    · split
      · norm_num
      · rename_i hboth hone
        have h1 : s1 ≠ [] := fun h => hone (Or.inl h)
        have h2 : s2 ≠ [] := fun h => hone (Or.inr h)
        have hmaxpos : 0 < max s1.length s2.length := by
          have : 0 < s1.length := List.length_pos.mpr h1
          omega
        have hmaxposQ : (0 : ℚ) < (max s1.length s2.length : ℚ) := by
          exact_mod_cast hmaxpos
        have hle : (levenshtein_distance s1 s2 : ℚ) ≤ (max s1.length s2.length : ℚ) := by
          exact_mod_cast levenshtein_distance_le s1 s2
        have hq1 : (levenshtein_distance s1 s2 : ℚ) / (max s1.length s2.length : ℚ) ≤ 1 :=
          (div_le_one hmaxposQ).mpr hle
        have hq0 : 0 ≤ (levenshtein_distance s1 s2 : ℚ) / (max s1.length s2.length : ℚ) :=
          div_nonneg (by positivity) (le_of_lt hmaxposQ)
        constructor <;> linarith
  · intro c s
    simp [string_similarity]
  · intro c s
    simp [string_similarity]

/-! ### Song matching (`utils/matching.py` and the worker's call in
`sync_service.py`) -/

/-- The fields of a candidate / target dictionary that matching reads. -/
structure Song where
  artist : Str
  title : Str
  duration : Int
deriving DecidableEq

/-- `duration_within_tolerance(target_seconds, candidate_seconds, tolerance)`. -/
def duration_within_tolerance (target_seconds candidate_seconds tolerance : Int) : Bool :=
  decide (|target_seconds - candidate_seconds| ≤ tolerance)

/-- `song_match_strict(candidate, target, duration_tolerance)`. -/
def song_match_strict (nfkd : Str → Str) (candidate target : Song)
    (duration_tolerance : Int) : Bool :=
  let ca := normalize_text nfkd candidate.artist
  let ct := normalize_text nfkd candidate.title
  let ta := normalize_text nfkd target.artist
  let tt := normalize_text nfkd target.title
  if ca ≠ ta ∨ ct ≠ tt then false
  else duration_within_tolerance target.duration candidate.duration duration_tolerance

/-- `song_match_fuzzy(candidate, target, title_threshold, artist_threshold,
duration_tolerance, use_strict)`; with `use_strict` it delegates to
`song_match_strict`, forwarding its **own** `duration_tolerance`. -/
def song_match_fuzzy (nfkd : Str → Str) (candidate target : Song)
    (title_threshold artist_threshold : ℚ) (duration_tolerance : Int)
    (use_strict : Bool) : Bool :=
  if use_strict then song_match_strict nfkd candidate target duration_tolerance
  else
    let ca := normalize_text nfkd candidate.artist
    let ct := normalize_text nfkd candidate.title
    let ta := normalize_text nfkd target.artist
    let tt := normalize_text nfkd target.title
    if string_similarity ct tt < title_threshold then false
    else if string_similarity ca ta < artist_threshold then false
    else duration_within_tolerance target.duration candidate.duration duration_tolerance

/-- The download worker's invocation
`song_match_fuzzy(c, item_to_process, use_strict=use_strict)`: all other
arguments keep `song_match_fuzzy`'s defaults
(`title_threshold=0.8`, `artist_threshold=0.7`, `duration_tolerance=10`). -/
def workerSongMatch (nfkd : Str → Str) (use_strict : Bool)
    (candidate target : Song) : Bool :=
  song_match_fuzzy nfkd candidate target (8 / 10) (7 / 10) 10 use_strict

/-- **C3 (counterexample).** In strict mode as the worker invokes it, a
candidate whose duration differs from the target's by 8 seconds still
matches: the call chain passes `song_match_fuzzy`'s default tolerance of
10 seconds to `song_match_strict`, not 5.  (`nfkd` is instantiated by the
identity, NFKD's behaviour on these ASCII strings.) -/
theorem C3_counterexample :
    workerSongMatch id true
        ⟨"Queen".toList, "Bohemian Rhapsody".toList, 360⟩
        ⟨"Queen".toList, "Bohemian Rhapsody".toList, 352⟩ = true
    ∧ ¬(|(352 : Int) - 360| ≤ 5) := by
  constructor
  · decide
  · decide

/-- **C3 (amended).** In strict match mode as the download worker invokes
it, a candidate matches a target iff the normalised artists are equal, the
normalised titles are equal, and the absolute duration difference is at
most **10** seconds (the worker's call chain forwards `song_match_fuzzy`'s
default `duration_tolerance=10` to `song_match_strict`; the 5-second
tolerance is only `song_match_strict`'s own default, which this call path
never uses). -/
theorem C3_strict_mode_charactn (nfkd : Str → Str) (candidate target : Song) :
    workerSongMatch nfkd true candidate target = true ↔
      (normalize_text nfkd candidate.artist = normalize_text nfkd target.artist
       ∧ normalize_text nfkd candidate.title = normalize_text nfkd target.title
       ∧ |target.duration - candidate.duration| ≤ 10) := by
  unfold workerSongMatch song_match_fuzzy song_match_strict duration_within_tolerance
  simp only [if_true]
  by_cases ha : normalize_text nfkd candidate.artist = normalize_text nfkd target.artist
  · by_cases ht : normalize_text nfkd candidate.title = normalize_text nfkd target.title
    · rw [if_neg (by push_neg; exact ⟨ha, ht⟩)]
      simp [ha, ht]
    · rw [if_pos (Or.inr ht)]
      simp [ht]
  · rw [if_pos (Or.inl ha)]
    simp [ha]

/-! ### Catalog store (`storage.py`)

A row of the `tracks` table.  Nullable columns are `Option`; the catalog
is the list of rows in rowid order.  `epoch`-style times are `Int`. -/

structure TrackRow where
  identity : Str
  artist : Str
  title : Str
  album : Option Str
  duration : Int
  playlist_id : Option Str
  spotify_id : Option Str
  expanded_from : Option Str
  status : Option Str
  local_path : Option Str
  last_error : Option Str
  retry_after : Option Int
  download_attempts : Option Nat
  last_seen : Option Int
deriving DecidableEq

/-- A track dictionary passed to `DB.upsert_tracks` (`.get` fields may be
absent/None). -/
structure TrackIn where
  identity : Option Str
  artist : Option Str
  title : Option Str
  album : Option Str
  duration : Option Int
  playlist_id : Option Str
  spotify_id : Option Str
  expanded_from : Option Str
deriving DecidableEq

/-- The row tuple built by the loop in `upsert_tracks`. -/
structure NormRow where
  identity : Str
  artist : Str
  title : Str
  album : Str
  duration : Int
  playlist_id : Option Str
  spotify_id : Option Str
  expanded_from : Str
  last_seen : Int
deriving DecidableEq

/-- Python `x or default` for an optional string (`None` and `''` are
falsy). -/
def orDefault (v : Option Str) (d : Str) : Str :=
  match v with
  | none => d
  | some s => if s = [] then d else s

/-- The normalisation loop of `upsert_tracks`: strips, defaults, and skips
entries whose stripped identity is empty. -/
def normalizeRows (tracks : List TrackIn) (epoch_seconds : Int) : List NormRow :=
  tracks.filterMap fun t =>
    if stripWs (orDefault t.identity []) = [] then none
    else some
      { identity := stripWs (orDefault t.identity [])
        artist := stripWs (orDefault t.artist ("Unknown".toList))
        title := stripWs (orDefault t.title ("Unknown".toList))
        album := stripWs (orDefault t.album [])
        duration := t.duration.getD 0
        playlist_id := t.playlist_id
        spotify_id := t.spotify_id
        expanded_from := orDefault t.expanded_from ("playlist".toList)
        last_seen := epoch_seconds }

/-- The `ON CONFLICT(identity) DO UPDATE SET` clause: refreshes display,
provenance and `last_seen` columns, leaves `status`, `local_path`,
`last_error`, `retry_after`, `download_attempts` (and rowid/identity)
untouched. -/
def applyUpdate (row : TrackRow) (nr : NormRow) : TrackRow :=
  { row with
    artist := nr.artist
    title := nr.title
    album := some nr.album
    duration := nr.duration
    playlist_id := nr.playlist_id
    spotify_id := nr.spotify_id
    expanded_from := some nr.expanded_from
    last_seen := some nr.last_seen }

/-- A plain `INSERT` of the tuple: columns not named in the statement are
NULL. -/
def newRow (nr : NormRow) : TrackRow :=
  { identity := nr.identity
    artist := nr.artist
    title := nr.title
    album := some nr.album
    duration := nr.duration
    playlist_id := nr.playlist_id
    spotify_id := nr.spotify_id
    expanded_from := some nr.expanded_from
    status := none
    local_path := none
    last_error := none
    retry_after := none
    download_attempts := none
    last_seen := some nr.last_seen }

/-- One `INSERT ... ON CONFLICT(identity) DO UPDATE` of `executemany`. -/
def upsertOne (cat : List TrackRow) (nr : NormRow) : List TrackRow :=
  if cat.any (fun row => decide (row.identity = nr.identity)) then
    cat.map fun row => if row.identity = nr.identity then applyUpdate row nr else row
  else cat ++ [newRow nr]

/-- `DB.upsert_tracks(tracks)` at time `epoch_seconds` (the single
`int(time.time())` taken at the start of the call). -/
def upsert_tracks (cat : List TrackRow) (tracks : List TrackIn)
    (epoch_seconds : Int) : List TrackRow :=
  (normalizeRows tracks epoch_seconds).foldl upsertOne cat

/-- The `SELECT download_attempts ... WHERE identity=?` read in
`mark_download_failure`: `(current[0] if current else 0) or 0`. -/
def lookupAttempts (cat : List TrackRow) (ident : Str) : Nat :=
  (((cat.find? fun row => decide (row.identity = ident)).bind
    fun row => row.download_attempts).getD 0)

/-- The `retry_after` column of the row with the given identity. -/
def lookupRetry (cat : List TrackRow) (ident : Str) : Option Int :=
  (cat.find? fun row => decide (row.identity = ident)).bind
    fun row => row.retry_after

/-- The `UPDATE ... SET` clause of `mark_download_failure`. -/
def failUpdate (err : Str) (retry_after : Int) (new_attempts : Nat)
    (row : TrackRow) : TrackRow :=
  { row with
    status := some ("missing".toList)
    last_error := some err
    retry_after := some retry_after
    download_attempts := some new_attempts }

/-- `DB.mark_download_failure(identity, error)` at time `now`:
`new_attempts = attempts_val + 1`,
`delay = min(300 * 3**(new_attempts - 1), 21600)`,
`retry_after = now + delay`. -/
def mark_download_failure (cat : List TrackRow) (ident err : Str)
    (now : Int) : List TrackRow :=
  cat.map fun row =>
    if row.identity = ident then
      failUpdate err
        (now + min (300 * 3 ^ (lookupAttempts cat ident + 1 - 1)) 21600)
        (lookupAttempts cat ident + 1) row
    else row

/-- `DB.mark_download_success(identity, local_path)` at time `now`. -/
def mark_download_success (cat : List TrackRow) (ident local_path : Str)
    (now : Int) : List TrackRow :=
  cat.map fun row =>
    if row.identity = ident then
      { row with
        status := some ("downloaded".toList)
        local_path := some local_path
        last_error := none
        retry_after := none
        download_attempts := some 0
        last_seen := some now }
    else row

/-- `bool(local_path and os.path.isfile(local_path))`, with the
filesystem abstracted as a predicate on paths. -/
def pathExists (file_exists : Str → Bool) (lp : Option Str) : Bool :=
  match lp with
  | none => false
  | some p => if p = [] then false else file_exists p

/-- The per-row body of `DB.reconcile_catalog_paths`. -/
def reconcileRow (file_exists : Str → Bool) (now : Int) (row : TrackRow) :
    TrackRow :=
  if pathExists file_exists row.local_path then
    if row.status ≠ some ("downloaded".toList) then
      { row with
        status := some ("downloaded".toList)
        last_error := none
        retry_after := none
        last_seen := some now }
    else row
  else
    if row.status ≠ some ("missing".toList) then
      { row with status := some ("missing".toList) }
    else row

/-- `DB.reconcile_catalog_paths()`: the updated table together with the
`(updated_downloaded, updated_missing)` counters. -/
def reconcile_catalog_paths (file_exists : Str → Bool) (now : Int)
    (cat : List TrackRow) : List TrackRow × Nat × Nat :=
  (cat.map (reconcileRow file_exists now),
   (cat.filter fun r =>
     pathExists file_exists r.local_path &&
       decide (r.status ≠ some ("downloaded".toList))).length,
   (cat.filter fun r =>
     !pathExists file_exists r.local_path &&
       decide (r.status ≠ some ("missing".toList))).length)

/-! ### C1: the failure backoff schedule -/

theorem find?_map_ident (cat : List TrackRow) (ident : Str)
    (g : TrackRow → TrackRow) (hg : ∀ r, (g r).identity = r.identity) :
    (cat.map fun row => if row.identity = ident then g row else row).find?
        (fun r => decide (r.identity = ident)) =
      (cat.find? fun r => decide (r.identity = ident)).map
        (fun row => if row.identity = ident then g row else row) := by
  induction cat with
  | nil => rfl
  | cons r rest ih =>
    by_cases h : r.identity = ident
    · simp only [List.map_cons, if_pos h, List.find?_cons]
      have h1 : (decide ((g r).identity = ident)) = true := by simp [hg r, h]
      have h2 : (decide (r.identity = ident)) = true := by simp [h]
      simp [h1, h2, h]
    · simp only [List.map_cons, if_neg h, List.find?_cons]
      have h2 : (decide (r.identity = ident)) = false := by simp [h]
      simp [h2, ih, h]

theorem mark_failure_lookupAttempts (cat : List TrackRow) (ident err : Str)
    (now : Int) :
    lookupAttempts (mark_download_failure cat ident err now) ident =
      match cat.find? (fun r => decide (r.identity = ident)) with
      | some _ => lookupAttempts cat ident + 1
      | none => 0 := by
  have hlook : lookupAttempts (mark_download_failure cat ident err now) ident =
      (((mark_download_failure cat ident err now).find?
        fun r => decide (r.identity = ident)).bind
          fun r => r.download_attempts).getD 0 := rfl
  rw [hlook]
  unfold mark_download_failure
  rw [find?_map_ident cat ident
    (failUpdate err (now + min (300 * 3 ^ (lookupAttempts cat ident + 1 - 1)) 21600)
      (lookupAttempts cat ident + 1)) (fun r => rfl)]
  cases h : cat.find? (fun r => decide (r.identity = ident)) with
  | none => simp
  | some r =>
    have hid : r.identity = ident := by
      have := List.find?_some h
      simpa using this
    simp [hid, failUpdate]

theorem mark_failure_lookupRetry (cat : List TrackRow) (ident err : Str)
    (now : Int) :
    lookupRetry (mark_download_failure cat ident err now) ident =
      (cat.find? fun r => decide (r.identity = ident)).map
        (fun _ => now + min (300 * 3 ^ lookupAttempts cat ident) 21600) := by
  have hlook : lookupRetry (mark_download_failure cat ident err now) ident =
      ((mark_download_failure cat ident err now).find?
        fun r => decide (r.identity = ident)).bind
          fun r => r.retry_after := rfl
  rw [hlook]
  unfold mark_download_failure
  rw [find?_map_ident cat ident
    (failUpdate err (now + min (300 * 3 ^ (lookupAttempts cat ident + 1 - 1)) 21600)
      (lookupAttempts cat ident + 1)) (fun r => rfl)]
  cases h : cat.find? (fun r => decide (r.identity = ident)) with
  | none => simp
  | some r =>
    have hid : r.identity = ident := by
      have := List.find?_some h
      simpa using this
    simp [hid, failUpdate]

theorem mark_failure_find? (cat : List TrackRow) (ident err : Str) (now : Int) :
    ((mark_download_failure cat ident err now).find?
        (fun r => decide (r.identity = ident))).isSome =
      (cat.find? fun r => decide (r.identity = ident)).isSome := by
  unfold mark_download_failure
  rw [find?_map_ident cat ident
    (failUpdate err (now + min (300 * 3 ^ (lookupAttempts cat ident + 1 - 1)) 21600)
      (lookupAttempts cat ident + 1)) (fun r => rfl)]
  cases cat.find? (fun r => decide (r.identity = ident)) <;> simp

theorem mark_failure_mem {cat : List TrackRow} {ident err : Str} {now : Int}
    {r : TrackRow} (hr : r ∈ mark_download_failure cat ident err now)
    (hid : r.identity = ident) :
    r.retry_after = some (now + min (300 * 3 ^ lookupAttempts cat ident) 21600)
    ∧ r.download_attempts = some (lookupAttempts cat ident + 1)
    ∧ r.status = some ("missing".toList) ∧ r.last_error = some err := by
  unfold mark_download_failure at hr
  obtain ⟨r0, hr0, heq⟩ := List.mem_map.mp hr
  by_cases h : r0.identity = ident
  · rw [if_pos h] at heq
    subst heq
    simp [failUpdate]
  · rw [if_neg h] at heq
    subst heq
    exact absurd hid h

/-- **C1.** `mark_download_failure` for the `n`-th failed attempt
(`n ≥ 1`, the row having recorded `n-1` prior attempts) stores
`retryAfter = now + min(300·3^(n-1), 21600)` and `downloadAttempts = n`;
in particular three successive failures of the same identity at times
`t1, t2, t3`, starting from zero recorded attempts, store `retryAfter`
values `t1+300`, `t2+900` and `t3+2700` — deltas of 300, 900, 2700
seconds from the respective failure times. -/
theorem C1_backoff_schedule (cat : List TrackRow) (ident err : Str) (now : Int)
    (n : Nat) (hn : 1 ≤ n) (ha : lookupAttempts cat ident = n - 1) :
    (∀ r ∈ mark_download_failure cat ident err now, r.identity = ident →
        r.retry_after = some (now + min (300 * 3 ^ (n - 1)) 21600)
        ∧ r.download_attempts = some n)
    ∧ (∀ t1 t2 t3 : Int, lookupAttempts cat ident = 0 →
        lookupRetry (mark_download_failure cat ident err t1) ident =
          (cat.find? fun r => decide (r.identity = ident)).map (fun _ => t1 + 300)
        ∧ lookupRetry (mark_download_failure
            (mark_download_failure cat ident err t1) ident err t2) ident =
          (cat.find? fun r => decide (r.identity = ident)).map (fun _ => t2 + 900)
        ∧ lookupRetry (mark_download_failure (mark_download_failure
            (mark_download_failure cat ident err t1) ident err t2) ident err t3)
            ident =
          (cat.find? fun r => decide (r.identity = ident)).map
            (fun _ => t3 + 2700)) := by
  constructor
  · intro r hr hid
    have h := mark_failure_mem hr hid
    rw [ha] at h
    have hexp : n - 1 + 1 = n := by omega
    exact ⟨h.1, by rw [h.2.1, hexp]⟩
  · intro t1 t2 t3 h0
    cases hf : cat.find? (fun r => decide (r.identity = ident)) with
    | none =>
      have h1 := mark_failure_lookupRetry cat ident err t1
      rw [hf] at h1
      have hf1 : (mark_download_failure cat ident err t1).find?
          (fun r => decide (r.identity = ident)) = none := by
        have := mark_failure_find? cat ident err t1
        rw [hf] at this
        simpa using this
      have h2 := mark_failure_lookupRetry (mark_download_failure cat ident err t1)
        ident err t2
      rw [hf1] at h2
      have hf2 : (mark_download_failure (mark_download_failure cat ident err t1)
          ident err t2).find? (fun r => decide (r.identity = ident)) = none := by
        have := mark_failure_find? (mark_download_failure cat ident err t1)
          ident err t2
        rw [hf1] at this
        simpa using this
      have h3 := mark_failure_lookupRetry (mark_download_failure
        (mark_download_failure cat ident err t1) ident err t2) ident err t3
      rw [hf2] at h3
      exact ⟨by simpa using h1, by simpa using h2, by simpa using h3⟩
    | some r =>
      have hl1 : lookupAttempts (mark_download_failure cat ident err t1) ident = 1 := by
        have := mark_failure_lookupAttempts cat ident err t1
        rw [hf, h0] at this
        simpa using this
      have hf1 : ∃ r1, (mark_download_failure cat ident err t1).find?
          (fun r => decide (r.identity = ident)) = some r1 := by
        have := mark_failure_find? cat ident err t1
        rw [hf] at this
        exact Option.isSome_iff_exists.mp (by simpa using this)
      obtain ⟨r1, hr1⟩ := hf1
      have hl2 : lookupAttempts (mark_download_failure
          (mark_download_failure cat ident err t1) ident err t2) ident = 2 := by
        have := mark_failure_lookupAttempts (mark_download_failure cat ident err t1)
          ident err t2
        rw [hr1, hl1] at this
        simpa using this
      have hf2 : ∃ r2, (mark_download_failure (mark_download_failure cat ident err t1)
          ident err t2).find? (fun r => decide (r.identity = ident)) = some r2 := by
        have := mark_failure_find? (mark_download_failure cat ident err t1) ident err t2
        rw [hr1] at this
        exact Option.isSome_iff_exists.mp (by simpa using this)
      obtain ⟨r2, hr2⟩ := hf2
      have e1 := mark_failure_lookupRetry cat ident err t1
      rw [hf, h0] at e1
      have e2 := mark_failure_lookupRetry (mark_download_failure cat ident err t1)
        ident err t2
      rw [hr1, hl1] at e2
      have e3 := mark_failure_lookupRetry (mark_download_failure
        (mark_download_failure cat ident err t1) ident err t2) ident err t3
      rw [hr2, hl2] at e3
      refine ⟨?_, ?_, ?_⟩
      · rw [e1]
        have hc : (min (300 * 3 ^ (0 : Nat)) 21600 : Int) = 300 := by norm_num
        rw [hc]
      · rw [e2]
        have hc : (min (300 * 3 ^ (1 : Nat)) 21600 : Int) = 900 := by norm_num
        rw [hc]
        simp [hr1]
      · rw [e3]
        have hc : (min (300 * 3 ^ (2 : Nat)) 21600 : Int) = 2700 := by norm_num
        rw [hc]
        simp [hr2]

/-- A concrete catalog row used by several witnesses. -/
def sampleRow : TrackRow :=
  { identity := "queen|bohemian rhapsody|70".toList
    artist := "Queen".toList
    title := "Bohemian Rhapsody".toList
    album := some ("A Night at the Opera".toList)
    duration := 354
    playlist_id := some ("p1".toList)
    spotify_id := some ("s1".toList)
    expanded_from := some ("playlist".toList)
    status := some ("missing".toList)
    local_path := none
    last_error := none
    retry_after := none
    download_attempts := none
    last_seen := some 10 }

/-- Witness for C1: one row with no recorded attempts; the first failure
at time 1000 defers to 1300, and the three-failure chain yields
1000+300, 2000+900, 3000+2700. -/
theorem C1_witness :
    (1 ≤ 1 ∧ lookupAttempts [sampleRow] ("queen|bohemian rhapsody|70".toList) = 1 - 1)
    ∧ lookupRetry (mark_download_failure [sampleRow]
        ("queen|bohemian rhapsody|70".toList) ("no match".toList) 1000)
        ("queen|bohemian rhapsody|70".toList) = some 1300
    ∧ lookupRetry (mark_download_failure (mark_download_failure (mark_download_failure
          [sampleRow] ("queen|bohemian rhapsody|70".toList) ("no match".toList) 1000)
          ("queen|bohemian rhapsody|70".toList) ("no match".toList) 2000)
        ("queen|bohemian rhapsody|70".toList) ("no match".toList) 3000)
        ("queen|bohemian rhapsody|70".toList) = some 5700 := by
  have h := (C1_backoff_schedule [sampleRow] ("queen|bohemian rhapsody|70".toList)
    ("no match".toList) 1000 1 le_rfl (by decide)).2 1000 2000 3000 (by decide)
  refine ⟨⟨le_rfl, by decide⟩, ?_, ?_⟩
  · rw [h.1]; decide
  · rw [h.2.2]; decide

/-! ### C7: reconciliation against the filesystem -/

/-- **C7.** After `reconcile_catalog_paths`, every row's status matches
file existence: rows whose file exists are `downloaded` (upgrading a
non-`downloaded` row clears `lastError`/`retryAfter` and refreshes
`lastSeen`), rows whose file does not exist are `missing` (the downgrade
changes only `status`), and no row's `downloadAttempts` or `localPath`
is touched. -/
theorem C7_reconcile_against_disk (file_exists : Str → Bool) (now : Int)
    (cat : List TrackRow) :
    (reconcile_catalog_paths file_exists now cat).1 =
      cat.map (reconcileRow file_exists now)
    ∧ ∀ r ∈ cat,
        ((reconcileRow file_exists now r).status = some ("downloaded".toList) ↔
          pathExists file_exists r.local_path = true)
        ∧ (pathExists file_exists r.local_path = false →
            (reconcileRow file_exists now r).status = some ("missing".toList))
        ∧ (reconcileRow file_exists now r).download_attempts = r.download_attempts
        ∧ (reconcileRow file_exists now r).local_path = r.local_path
        ∧ (pathExists file_exists r.local_path = true →
            r.status ≠ some ("downloaded".toList) →
            reconcileRow file_exists now r =
              { r with
                status := some ("downloaded".toList)
                last_error := none
                retry_after := none
                last_seen := some now })
        ∧ (pathExists file_exists r.local_path = true →
            r.status = some ("downloaded".toList) →
            reconcileRow file_exists now r = r)
        ∧ (pathExists file_exists r.local_path = false →
            r.status ≠ some ("missing".toList) →
            reconcileRow file_exists now r = { r with status := some ("missing".toList) })
        ∧ (pathExists file_exists r.local_path = false →
            r.status = some ("missing".toList) →
            reconcileRow file_exists now r = r) := by
  refine ⟨rfl, fun r _ => ?_⟩
  unfold reconcileRow
  by_cases hp : pathExists file_exists r.local_path = true
  · rw [if_pos hp]
    by_cases hs : r.status = some ("downloaded".toList)
    · rw [if_neg (by simpa using hs)]
      refine ⟨by simp [hs, hp], by simp [hp], rfl, rfl, ?_, fun _ _ => rfl, ?_, ?_⟩
      · intro _ hcontra
        exact absurd hs hcontra
      · intro hfalse
        rw [hp] at hfalse
        exact absurd hfalse (by simp)
      · intro hfalse
        rw [hp] at hfalse
        exact absurd hfalse (by simp)
    · rw [if_pos (by simpa using hs)]
      refine ⟨by simp [hp], by simp [hp], rfl, rfl, fun _ _ => rfl, ?_, ?_, ?_⟩
      · intro _ hcontra
        exact absurd hcontra hs
      · intro hfalse
        rw [hp] at hfalse
        exact absurd hfalse (by simp)
      · intro hfalse
        rw [hp] at hfalse
        exact absurd hfalse (by simp)
  · have hp' : pathExists file_exists r.local_path = false := by
      revert hp
      cases pathExists file_exists r.local_path <;> simp
    rw [if_neg (by simp [hp'])]
    by_cases hs : r.status = some ("missing".toList)
    · rw [if_neg (by simpa using hs)]
      refine ⟨?_, fun _ => hs, rfl, rfl, ?_, ?_, ?_, fun _ _ => rfl⟩
      · constructor
        · intro hcontra
          rw [hs] at hcontra
          exact absurd (Option.some.injEq _ _ ▸ hcontra) (by decide)
        · intro htrue
          rw [htrue] at hp'
          exact absurd hp' (by simp)
      · intro htrue
        rw [htrue] at hp'
        exact absurd hp' (by simp)
      · intro htrue
        rw [htrue] at hp'
        exact absurd hp' (by simp)
      · intro _ hcontra
        exact absurd hs hcontra
    · rw [if_pos (by simpa using hs)]
      refine ⟨?_, fun _ => rfl, rfl, rfl, ?_, ?_, fun _ _ => rfl, ?_⟩
      · constructor
        · intro hcontra
          simp only [Option.some.injEq] at hcontra
          exact absurd hcontra (by decide)
        · intro htrue
          rw [htrue] at hp'
          exact absurd hp' (by simp)
      · intro htrue
        rw [htrue] at hp'
        exact absurd hp' (by simp)
      · intro htrue
        rw [htrue] at hp'
        exact absurd hp' (by simp)
      · intro _ hcontra
        exact absurd hcontra hs

/-- Witness for C7: a two-row catalog over a filesystem containing
exactly `/music/a.mp3`: the row pointing there is upgraded, the row with
no file is downgraded, and neither row's attempt counter moves. -/
theorem C7_witness :
    (reconcileRow (fun p => decide (p = "/music/a.mp3".toList)) 99
        { sampleRow with local_path := some ("/music/a.mp3".toList) }).status =
      some ("downloaded".toList)
    ∧ (reconcileRow (fun p => decide (p = "/music/a.mp3".toList)) 99
        { sampleRow with status := some ("downloaded".toList) }).status =
      some ("missing".toList)
    ∧ (reconcileRow (fun p => decide (p = "/music/a.mp3".toList)) 99
        { sampleRow with status := some ("downloaded".toList) }).download_attempts =
      sampleRow.download_attempts := by
  have h := C7_reconcile_against_disk (fun p => decide (p = "/music/a.mp3".toList)) 99
    [{ sampleRow with local_path := some ("/music/a.mp3".toList) },
     { sampleRow with status := some ("downloaded".toList) }]
  refine ⟨((h.2 _ (by simp)).1).mpr (by decide), ?_, ?_⟩
  · exact (h.2 _ (by simp)).2.1 (by decide)
  · exact (h.2 _ (by simp)).2.2.1

/-! ### C2: idempotent upsert -/

/-- A row with its `last_seen` column blanked, for "byte-identical except
`lastSeen`" comparisons. -/
def eraseSeen (r : TrackRow) : TrackRow := { r with last_seen := none }

/-- The same normalised tuple re-stamped at a different upsert time. -/
def reseen (t : Int) (nr : NormRow) : NormRow := { nr with last_seen := t }

/-- The last tuple of the batch carrying a given identity (the write that
wins under `executemany`'s in-order processing). -/
def lastMatch (nrs : List NormRow) (ident : Str) : Option NormRow :=
  (nrs.filter fun nr => decide (nr.identity = ident)).getLast?

theorem applyUpdate_identity (r : TrackRow) (nr : NormRow) :
    (applyUpdate r nr).identity = r.identity := rfl

theorem applyUpdate_comp (r : TrackRow) (a b : NormRow) :
    applyUpdate (applyUpdate r a) b = applyUpdate r b := rfl

theorem newRow_identity (nr : NormRow) : (newRow nr).identity = nr.identity := rfl

theorem applyUpdate_newRow {s nr : NormRow} (h : nr.identity = s.identity) :
    applyUpdate (newRow s) nr = newRow nr := by
  unfold applyUpdate newRow
  simp [h]

theorem eraseSeen_applyUpdate_reseen (r : TrackRow) (nr : NormRow) (t : Int) :
    eraseSeen (applyUpdate r (reseen t nr)) = eraseSeen (applyUpdate r nr) := rfl

theorem eraseSeen_newRow_reseen (nr : NormRow) (t : Int) :
    eraseSeen (newRow (reseen t nr)) = eraseSeen (newRow nr) := rfl

theorem normalizeRows_reseen (tracks : List TrackIn) (t1 t2 : Int) :
    normalizeRows tracks t2 = (normalizeRows tracks t1).map (reseen t2) := by
  induction tracks with
  | nil => rfl
  | cons t rest ih =>
    unfold normalizeRows at ih ⊢
    simp only [List.filterMap_cons]
    by_cases hid : stripWs (orDefault t.identity []) = []
    · rw [if_pos hid, if_pos hid]
      exact ih
    · rw [if_neg hid, if_neg hid]
      simp only [List.map_cons, List.cons.injEq]
      exact ⟨rfl, ih⟩

theorem normalizeRows_seen (tracks : List TrackIn) (t : Int) :
    ∀ nr ∈ normalizeRows tracks t, nr.last_seen = t := by
  intro nr h
  rw [normalizeRows_reseen tracks 0 t] at h
  obtain ⟨nr0, _, hmap⟩ := List.mem_map.mp h
  rw [← hmap]
  rfl

theorem upsertOne_length_le (cat : List TrackRow) (nr : NormRow) :
    cat.length ≤ (upsertOne cat nr).length := by
  unfold upsertOne
  split
  · simp
  · simp

theorem upsertOne_getElem (cat : List TrackRow) (nr : NormRow) (i : Nat)
    (h : i < cat.length) :
    (upsertOne cat nr)[i]? =
      cat[i]?.map fun r =>
        if r.identity = nr.identity then applyUpdate r nr else r := by
  by_cases hany : (cat.any fun row => decide (row.identity = nr.identity)) = true
  · have hdef : upsertOne cat nr =
        cat.map fun row => if row.identity = nr.identity then applyUpdate row nr
          else row := by
      unfold upsertOne
      rw [if_pos hany]
    rw [hdef, List.getElem?_map]
  · have hdef : upsertOne cat nr = cat ++ [newRow nr] := by
      unfold upsertOne
      rw [if_neg hany]
    rw [hdef, List.getElem?_append_left h, List.getElem?_eq_getElem h]
    have hne : ¬(cat[i].identity = nr.identity) := by
      intro hc
      exact hany (List.any_eq_true.mpr ⟨cat[i], List.getElem_mem h, by simp [hc]⟩)
    simp [hne]

theorem foldl_upsert_length_le (nrs : List NormRow) :
    ∀ cat : List TrackRow, cat.length ≤ (nrs.foldl upsertOne cat).length := by
  induction nrs with
  | nil => intro cat; exact le_rfl
  | cons s rest ih =>
    intro cat
    exact le_trans (upsertOne_length_le cat s) (ih (upsertOne cat s))

theorem getLast_cons_getD {α : Type} (a : α) (l : List α) :
    (a :: l).getLast? = some (l.getLast?.getD a) := by
  cases hl : l.getLast? with
  | none =>
    rw [List.getLast?_eq_none_iff.mp hl]
    rfl
  | some x =>
    cases l with
    | nil => simp at hl
    | cons b r =>
      rw [List.getLast?_cons_cons, hl]
      rfl

theorem lastMatch_cons_pos {s : NormRow} {ident : Str} (nrs : List NormRow)
    (h : s.identity = ident) :
    lastMatch (s :: nrs) ident = some ((lastMatch nrs ident).getD s) := by
  unfold lastMatch
  rw [List.filter_cons, if_pos (by simp [h])]
  exact getLast_cons_getD s _

theorem lastMatch_cons_neg {s : NormRow} {ident : Str} (nrs : List NormRow)
    (h : ¬s.identity = ident) :
    lastMatch (s :: nrs) ident = lastMatch nrs ident := by
  unfold lastMatch
  rw [List.filter_cons, if_neg (by simp [h])]

theorem lastMatch_identity {nrs : List NormRow} {ident : Str} {nr : NormRow}
    (h : lastMatch nrs ident = some nr) : nr.identity = ident := by
  unfold lastMatch at h
  have hmem := mem_of_getLast_eq h
  have := (List.mem_filter.mp hmem).2
  simpa using this

theorem lastMatch_mem {nrs : List NormRow} {ident : Str} {nr : NormRow}
    (h : lastMatch nrs ident = some nr) : nr ∈ nrs := by
  unfold lastMatch at h
  exact (List.mem_filter.mp (mem_of_getLast_eq h)).1

theorem lastMatch_isSome {nrs : List NormRow} {ident : Str}
    (h : ∃ nr ∈ nrs, nr.identity = ident) : ∃ nr, lastMatch nrs ident = some nr := by
  obtain ⟨nr, hmem, hid⟩ := h
  unfold lastMatch
  cases hl : (nrs.filter fun nr => decide (nr.identity = ident)).getLast? with
  | some x => exact ⟨x, rfl⟩
  | none =>
    exfalso
    have := List.getLast?_eq_none_iff.mp hl
    rw [List.filter_eq_nil_iff] at this
    exact this nr hmem (by simp [hid])

/-- Where a single batch entry takes a row, composed with where the rest
of the batch takes it, is where the whole batch takes it. -/
theorem upsert_step_char (s : NormRow) (nrs : List NormRow) (r : TrackRow) :
    (match lastMatch nrs ((if r.identity = s.identity then applyUpdate r s
        else r).identity) with
      | some nr => applyUpdate (if r.identity = s.identity then applyUpdate r s
          else r) nr
      | none => (if r.identity = s.identity then applyUpdate r s else r)) =
    (match lastMatch (s :: nrs) r.identity with
      | some nr => applyUpdate r nr
      | none => r) := by
  by_cases hid : r.identity = s.identity
  · rw [if_pos hid, applyUpdate_identity, lastMatch_cons_pos nrs hid.symm]
    cases hm : lastMatch nrs r.identity with
    | some nr => simp [applyUpdate_comp]
    | none => simp
  · rw [if_neg hid, lastMatch_cons_neg nrs (fun hc => hid hc.symm)]

/-- Positional characterization of a whole upsert batch on the rows that
were already in the table: the last matching write wins, applied once. -/
theorem upsert_getElem_char (nrs : List NormRow) :
    ∀ (cat : List TrackRow) (i : Nat), i < cat.length →
      (nrs.foldl upsertOne cat)[i]? =
        cat[i]?.map fun r =>
          match lastMatch nrs r.identity with
          | some nr => applyUpdate r nr
          | none => r := by
  induction nrs with
  | nil =>
    intro cat i h
    simp only [List.foldl_nil]
    cases hc : cat[i]? with
    | none => simp
    | some r => simp [lastMatch]
  | cons s nrs ih =>
    intro cat i h
    simp only [List.foldl_cons]
    rw [ih (upsertOne cat s) i (lt_of_lt_of_le h (upsertOne_length_le cat s)),
      upsertOne_getElem cat s i h, Option.map_map]
    rw [List.getElem?_eq_getElem h]
    exact congrArg some (upsert_step_char s nrs (cat[i]))

/-- An identity is present in a catalog. -/
def Present (cat : List TrackRow) (x : Str) : Prop :=
  ∃ r ∈ cat, r.identity = x

theorem Present_upsertOne {cat : List TrackRow} {x : Str} (s : NormRow)
    (h : Present cat x) : Present (upsertOne cat s) x := by
  obtain ⟨r, hmem, hid⟩ := h
  unfold upsertOne
  split
  · exact ⟨if r.identity = s.identity then applyUpdate r s else r,
      List.mem_map.mpr ⟨r, hmem, rfl⟩, by split <;> simp [applyUpdate_identity, hid]⟩
  · exact ⟨r, List.mem_append_left _ hmem, hid⟩

theorem Present_upsertOne_self (cat : List TrackRow) (s : NormRow) :
    Present (upsertOne cat s) s.identity := by
  unfold upsertOne
  by_cases hany : (cat.any fun row => decide (row.identity = s.identity)) = true
  · rw [if_pos hany]
    obtain ⟨r, hmem, hid⟩ := List.any_eq_true.mp hany
    refine ⟨if r.identity = s.identity then applyUpdate r s else r,
      List.mem_map.mpr ⟨r, hmem, rfl⟩, ?_⟩
    split <;> simp_all [applyUpdate_identity]
  · rw [if_neg hany]
    exact ⟨newRow s, List.mem_append_right _ (by simp), rfl⟩

theorem Present_foldl {nrs : List NormRow} :
    ∀ {cat : List TrackRow} {x : Str}, Present cat x →
      Present (nrs.foldl upsertOne cat) x := by
  induction nrs with
  | nil => intro cat x h; exact h
  | cons s nrs ih =>
    intro cat x h
    exact ih (Present_upsertOne s h)

theorem Present_foldl_batch (nrs : List NormRow) :
    ∀ (cat : List TrackRow), ∀ nr ∈ nrs,
      Present (nrs.foldl upsertOne cat) nr.identity := by
  induction nrs with
  | nil => intro cat nr h; simp at h
  | cons s nrs ih =>
    intro cat nr h
    rcases List.mem_cons.mp h with rfl | h'
    · simp only [List.foldl_cons]
      exact Present_foldl (Present_upsertOne_self cat nr)
    · simp only [List.foldl_cons]
      exact ih (upsertOne cat s) nr h'

theorem upsertOne_length_present {cat : List TrackRow} {s : NormRow}
    (h : Present cat s.identity) : (upsertOne cat s).length = cat.length := by
  unfold upsertOne
  obtain ⟨r, hmem, hid⟩ := h
  rw [if_pos (List.any_eq_true.mpr ⟨r, hmem, by simp [hid]⟩)]
  simp

theorem foldl_length_present (nrs : List NormRow) :
    ∀ (cat : List TrackRow), (∀ nr ∈ nrs, Present cat nr.identity) →
      (nrs.foldl upsertOne cat).length = cat.length := by
  induction nrs with
  | nil => intro cat _; rfl
  | cons s nrs ih =>
    intro cat hall
    simp only [List.foldl_cons]
    rw [ih (upsertOne cat s)
      (fun nr h => Present_upsertOne s (hall nr (List.mem_cons_of_mem s h))),
      upsertOne_length_present (hall s (List.mem_cons_self s nrs))]

/-- Rows at positions beyond the original table are freshly inserted: each
equals `newRow` of the winning batch entry for its identity. -/
theorem upsert_append_char (nrs : List NormRow) :
    ∀ (cat : List TrackRow) (i : Nat), cat.length ≤ i →
      ∀ v, (nrs.foldl upsertOne cat)[i]? = some v →
        ∃ nr', v = newRow nr' ∧ lastMatch nrs nr'.identity = some nr' := by
  induction nrs with
  | nil =>
    intro cat i hge v hv
    simp only [List.foldl_nil] at hv
    rw [List.getElem?_eq_none hge] at hv
    exact absurd hv (by simp)
  | cons s nrs ih =>
    intro cat i hge v hv
    simp only [List.foldl_cons] at hv
    have hup : ∀ nr', lastMatch nrs nr'.identity = some nr' →
        lastMatch (s :: nrs) nr'.identity = some nr' := by
      intro nr' hlm
      by_cases hs : s.identity = nr'.identity
      · rw [lastMatch_cons_pos nrs hs, hlm]
        rfl
      · rw [lastMatch_cons_neg nrs hs]
        exact hlm
    by_cases hany : (cat.any fun row => decide (row.identity = s.identity)) = true
    · have hlen : (upsertOne cat s).length = cat.length := by
        unfold upsertOne
        rw [if_pos hany]
        simp
      obtain ⟨nr', hv', hlm⟩ := ih (upsertOne cat s) i (hlen ▸ hge) v hv
      exact ⟨nr', hv', hup nr' hlm⟩
    · have hdef : upsertOne cat s = cat ++ [newRow s] := by
        unfold upsertOne
        rw [if_neg hany]
      by_cases hi : i = cat.length
      · subst hi
        have hpos : cat.length < (upsertOne cat s).length := by
          rw [hdef]
          simp
        have hval : (upsertOne cat s)[cat.length]? = some (newRow s) := by
          rw [hdef, List.getElem?_append_right le_rfl]
          simp
        rw [upsert_getElem_char nrs (upsertOne cat s) cat.length hpos, hval] at hv
        simp only [Option.map_some', Option.some.injEq] at hv
        cases hm : lastMatch nrs (newRow s).identity with
        | some nr =>
          rw [hm] at hv
          have hv' : applyUpdate (newRow s) nr = v := hv
          have hid : nr.identity = s.identity := lastMatch_identity hm
          refine ⟨nr, by rw [← hv', applyUpdate_newRow hid], ?_⟩
          rw [lastMatch_cons_pos nrs hid.symm]
          have hm' : lastMatch nrs nr.identity = some nr := by
            rw [hid]
            exact hm
          rw [hm']
          rfl
        | none =>
          rw [hm] at hv
          have hv' : newRow s = v := hv
          refine ⟨s, hv'.symm, ?_⟩
          rw [lastMatch_cons_pos nrs rfl]
          have hm' : lastMatch nrs s.identity = none := hm
          rw [hm']
          rfl
      · have hge' : (upsertOne cat s).length ≤ i := by
          rw [hdef]
          simp only [List.length_append, List.length_cons, List.length_nil]
          omega
        obtain ⟨nr', hv', hlm⟩ := ih (upsertOne cat s) i hge' v hv
        exact ⟨nr', hv', hup nr' hlm⟩

theorem lastMatch_reseen (nrs : List NormRow) (t : Int) (x : Str) :
    lastMatch (nrs.map (reseen t)) x = (lastMatch nrs x).map (reseen t) := by
  unfold lastMatch
  rw [List.filter_map, List.getLast?_map]
  rfl

/-- Replaying the winning write of the same batch (with a fresh
`last_seen`) onto any row the first pass produced changes nothing but
`last_seen`. -/
theorem second_pass_fix (nrs : List NormRow) (t2 : Int) (cat : List TrackRow)
    (i : Nat) {w : TrackRow} (hw : (nrs.foldl upsertOne cat)[i]? = some w) :
    eraseSeen (match lastMatch (nrs.map (reseen t2)) w.identity with
      | some nr => applyUpdate w nr
      | none => w) = eraseSeen w := by
  rw [lastMatch_reseen]
  by_cases hlt : i < cat.length
  · rw [upsert_getElem_char nrs cat i hlt] at hw
    cases hc : cat[i]? with
    | none =>
      rw [hc] at hw
      simp at hw
    | some r0 =>
      rw [hc] at hw
      simp only [Option.map_some', Option.some.injEq] at hw
      cases hm : lastMatch nrs r0.identity with
      | some nr =>
        rw [hm] at hw
        have hw' : applyUpdate r0 nr = w := hw
        have hwid : w.identity = r0.identity := by
          rw [← hw']
          rfl
        rw [hwid, hm]
        simp only [Option.map_some']
        rw [← hw', applyUpdate_comp]
        exact eraseSeen_applyUpdate_reseen r0 (reseen t2 nr) t2 ▸
          eraseSeen_applyUpdate_reseen r0 nr t2
      | none =>
        rw [hm] at hw
        have hw' : r0 = w := hw
        have hwid : w.identity = r0.identity := by
          rw [← hw']
        rw [hwid, hm]
        simp
  · have hge := le_of_not_lt hlt
    obtain ⟨nr', hwv, hlm⟩ := upsert_append_char nrs cat i hge w hw
    subst hwv
    have hlm' : lastMatch nrs (newRow nr').identity = some nr' := hlm
    rw [hlm']
    simp only [Option.map_some']
    rw [applyUpdate_newRow (show (reseen t2 nr').identity = nr'.identity from rfl)]
    exact eraseSeen_newRow_reseen nr' t2

/-- **C2.** Idempotent upsert: running `upsert_tracks` twice with the same
batch leaves every catalog row identical to the state after the first run
except for `last_seen` (pointwise `Forall₂`); and a single run preserves
every pre-existing row's `status`, `local_path`, `last_error`,
`retry_after` and `download_attempts` while, on identity conflict,
refreshing `last_seen` and the display/provenance columns from the last
matching batch entry (rows with no matching batch entry are untouched). -/
theorem C2_upsert_idempotent (cat : List TrackRow) (tracks : List TrackIn)
    (t1 t2 : Int) :
    List.Forall₂ (fun r2 r1 => eraseSeen r2 = eraseSeen r1)
      (upsert_tracks (upsert_tracks cat tracks t1) tracks t2)
      (upsert_tracks cat tracks t1)
    ∧ ∀ (i : Nat) (r : TrackRow), cat[i]? = some r →
        ∃ v, (upsert_tracks cat tracks t1)[i]? = some v
          ∧ v.identity = r.identity
          ∧ v.status = r.status
          ∧ v.local_path = r.local_path
          ∧ v.last_error = r.last_error
          ∧ v.retry_after = r.retry_after
          ∧ v.download_attempts = r.download_attempts
          ∧ ((∃ nr ∈ normalizeRows tracks t1, nr.identity = r.identity) →
              v.last_seen = some t1
              ∧ ∃ nr ∈ normalizeRows tracks t1, nr.identity = r.identity
                  ∧ v.artist = nr.artist ∧ v.title = nr.title
                  ∧ v.album = some nr.album ∧ v.duration = nr.duration
                  ∧ v.playlist_id = nr.playlist_id ∧ v.spotify_id = nr.spotify_id
                  ∧ v.expanded_from = some nr.expanded_from)
          ∧ ((¬∃ nr ∈ normalizeRows tracks t1, nr.identity = r.identity) →
              v = r) := by
  constructor
  · rw [List.forall₂_iff_get]
    have hR2 : upsert_tracks (upsert_tracks cat tracks t1) tracks t2 =
        ((normalizeRows tracks t1).map (reseen t2)).foldl upsertOne
          (upsert_tracks cat tracks t1) := by
      unfold upsert_tracks
      rw [normalizeRows_reseen tracks t1 t2]
    have hall : ∀ nr2 ∈ (normalizeRows tracks t1).map (reseen t2),
        Present (upsert_tracks cat tracks t1) nr2.identity := by
      intro nr2 hmem
      obtain ⟨nr, hnr, rfl⟩ := List.mem_map.mp hmem
      exact Present_foldl_batch (normalizeRows tracks t1) cat nr hnr
    have hlen : (upsert_tracks (upsert_tracks cat tracks t1) tracks t2).length =
        (upsert_tracks cat tracks t1).length := by
      rw [hR2]
      exact foldl_length_present _ _ hall
    refine ⟨hlen, ?_⟩
    intro i h1 h2
    have hchar := upsert_getElem_char ((normalizeRows tracks t1).map (reseen t2))
      (upsert_tracks cat tracks t1) i h2
    rw [← hR2] at hchar
    have hRget : (upsert_tracks cat tracks t1)[i]? =
        some ((upsert_tracks cat tracks t1).get ⟨i, h2⟩) := by
      rw [List.getElem?_eq_getElem h2, List.get_eq_getElem]
    have hR2get : (upsert_tracks (upsert_tracks cat tracks t1) tracks t2)[i]? =
        some ((upsert_tracks (upsert_tracks cat tracks t1) tracks t2).get ⟨i, h1⟩) := by
      rw [List.getElem?_eq_getElem h1, List.get_eq_getElem]
    rw [hR2get, hRget] at hchar
    simp only [Option.map_some', Option.some.injEq] at hchar
    rw [hchar]
    exact second_pass_fix (normalizeRows tracks t1) t2 cat i hRget
  · intro i r hr
    have hlt : i < cat.length := by
      by_contra hc
      rw [List.getElem?_eq_none (le_of_not_lt hc)] at hr
      cases hr
    have hchar := upsert_getElem_char (normalizeRows tracks t1) cat i hlt
    rw [hr] at hchar
    simp only [Option.map_some'] at hchar
    cases hm : lastMatch (normalizeRows tracks t1) r.identity with
    | some nr =>
      rw [hm] at hchar
      have hchar' : (normalizeRows tracks t1).foldl upsertOne cat =
          upsert_tracks cat tracks t1 := rfl
      refine ⟨applyUpdate r nr, by rw [← hchar']; exact hchar, rfl, rfl, rfl, rfl,
        rfl, rfl, ?_, ?_⟩
      · intro _
        refine ⟨?_, nr, lastMatch_mem hm, lastMatch_identity hm, rfl, rfl, rfl,
          rfl, rfl, rfl, rfl⟩
        have : nr.last_seen = t1 :=
          normalizeRows_seen tracks t1 nr (lastMatch_mem hm)
        show some nr.last_seen = some t1
        rw [this]
      · intro hno
        exact absurd ⟨nr, lastMatch_mem hm, lastMatch_identity hm⟩ hno
    | none =>
      rw [hm] at hchar
      refine ⟨r, hchar, rfl, rfl, rfl, rfl, rfl, rfl, ?_, fun _ => rfl⟩
      intro hex
      obtain ⟨nr, hsome⟩ := lastMatch_isSome hex
      rw [hm] at hsome
      cases hsome

/-- A concrete incoming track matching `sampleRow`'s identity, used by the
C2 witness. -/
def sampleTrackIn : TrackIn :=
  { identity := some ("queen|bohemian rhapsody|70".toList)
    artist := some ("Queen".toList)
    title := some ("Bohemian Rhapsody".toList)
    album := some ("A Night at the Opera".toList)
    duration := some 354
    playlist_id := some ("p2".toList)
    spotify_id := some ("s2".toList)
    expanded_from := none }

/-- Witness for C2: upserting over a one-row catalog with a matching
batch entry keeps the download-state columns and refreshes `last_seen`. -/
theorem C2_witness :
    (upsert_tracks [sampleRow] [sampleTrackIn] 20)[0]?.map TrackRow.status =
      some sampleRow.status
    ∧ (upsert_tracks [sampleRow] [sampleTrackIn] 20)[0]?.map TrackRow.last_seen =
      some (some 20)
    ∧ (upsert_tracks [sampleRow] [sampleTrackIn] 20)[0]?.map
        TrackRow.download_attempts = some sampleRow.download_attempts := by
  obtain ⟨v, hv, hid, hst, hlp, hle, hra, hda, href, hnoref⟩ :=
    (C2_upsert_idempotent [sampleRow] [sampleTrackIn] 20 30).2 0 sampleRow rfl
  have hseen := (href (by decide)).1
  rw [hv]
  exact ⟨by rw [Option.map_some', hst], by rw [Option.map_some', hseen],
    by rw [Option.map_some', hda]⟩

/-! ### Queue items and live-queue operations
(`queue.py` `identity_key`; `sync_service.py` live queue) -/

/-- `identity_key(track)`: normalised artist, normalised title, and the
5-second duration bucket (Python floor division `// 5`), joined by `|`. -/
def identity_key (nfkd : Str → Str) (artist title : Str) (duration : Int) : Str :=
  normalize_text nfkd artist ++ '|' :: normalize_text nfkd title ++ '|' ::
    (toString (Int.fdiv duration 5)).toList

/-- A queue-item dictionary. -/
structure QItem where
  artist : Str
  title : Str
  album : Str
  duration : Int
  identity : Option Str
  progress : Option Int
  status : Option Str
  timestamp : Option Str
deriving DecidableEq

/-- The identity key of a queue item (`identity_key` reads only artist,
title and duration). -/
def qkey (nfkd : Str → Str) (it : QItem) : Str :=
  identity_key nfkd it.artist it.title it.duration

/-- The orchestrator's `_live_status` triple queue. -/
structure LiveQueue where
  current : List QItem
  pending : List QItem
  completed : List QItem
deriving DecidableEq

/-- `SyncService.set_live_pending_queue(items)`. -/
def set_live_pending_queue (items : List QItem) (q : LiveQueue) : LiveQueue :=
  { q with pending := items }

/-- `SyncService.live_move_to_current(item)`: append to `current` with
`progress = 0`, drop every pending item with the same identity key. -/
def live_move_to_current (nfkd : Str → Str) (item : QItem) (q : LiveQueue) :
    LiveQueue :=
  { q with
    current := q.current ++ [{ item with progress := some 0 }]
    pending := q.pending.filter fun p => decide (qkey nfkd p ≠ qkey nfkd item) }

/-- `SyncService.live_complete_item(item, success)`: drop from `current`
by identity key, prepend a completed record with status
`downloaded`/`missing` and a timestamp. -/
def live_complete_item (nfkd : Str → Str) (item : QItem) (success : Bool)
    (ts : Str) (q : LiveQueue) : LiveQueue :=
  { q with
    current := q.current.filter fun c => decide (qkey nfkd c ≠ qkey nfkd item)
    completed :=
      { item with
        status := some (if success then "downloaded".toList else "missing".toList)
        timestamp := some ts } :: q.completed }

/-- Queue disjointness: no identity key is shared between `current` and
`pending`. -/
def QueueDisjoint (nfkd : Str → Str) (q : LiveQueue) : Prop :=
  ∀ c ∈ q.current, ∀ p ∈ q.pending, qkey nfkd c ≠ qkey nfkd p

/-- The completion phase of one download-worker iteration
(`_process_download_queue` lines 534–547): on success record the path via
`mark_download_success`; on a non-cancelled failure record it via
`mark_download_failure`; in every case move the item from `current` to
`completed`.  (The subsequent `reconcile_catalog(force=True)` is a
separate operation.) -/
def processOutcome (nfkd : Str → Str) (db : Option (List TrackRow))
    (success was_cancelled : Bool) (error_reason : Option Str)
    (downloaded_path : Option Str) (item : QItem) (q : LiveQueue)
    (now : Int) (ts : Str) : Option (List TrackRow) × LiveQueue :=
  (if success then
    match db, downloaded_path with
    | some cat, some p => some (mark_download_success cat (qkey nfkd item) p now)
    | _, _ => db
   else if !was_cancelled then
    db.map fun cat =>
      mark_download_failure cat (qkey nfkd item)
        (orDefault error_reason ("download failed".toList)) now
   else db,
   live_complete_item nfkd item success ts q)

/-- A concrete queue item for the C4/C8 counterexamples. -/
def cItem : QItem :=
  { artist := "Queen".toList
    title := "Bohemian Rhapsody".toList
    album := "A Night at the Opera".toList
    duration := 354
    identity := none
    progress := none
    status := none
    timestamp := none }

/-- The live queue while `cItem` is downloading: it is the only current
item, pending is empty. -/
def cQueue : LiveQueue :=
  live_move_to_current id cItem (set_live_pending_queue [cItem] ⟨[], [], []⟩)

/-- **C4 (counterexample).** A cancelled outcome (pause or 300-second
timeout) leaves the catalog untouched — that half of the claim holds —
but the worker does **not** return the item to the head of `pending`: it
calls `live_complete_item(item, False)`, so the item lands at the head of
`completed` with status `missing` while `pending` stays empty. -/
theorem C4_counterexample :
    (processOutcome id (some [sampleRow]) false true
        (some ("timeout after 300s".toList)) none cItem cQueue 1000
        ("2025-01-01T00:00:00".toList)).1 = some [sampleRow]
    ∧ (processOutcome id (some [sampleRow]) false true
        (some ("timeout after 300s".toList)) none cItem cQueue 1000
        ("2025-01-01T00:00:00".toList)).2.pending = []
    ∧ ¬((processOutcome id (some [sampleRow]) false true
        (some ("timeout after 300s".toList)) none cItem cQueue 1000
        ("2025-01-01T00:00:00".toList)).2.pending.head? = some cItem)
    ∧ (processOutcome id (some [sampleRow]) false true
        (some ("timeout after 300s".toList)) none cItem cQueue 1000
        ("2025-01-01T00:00:00".toList)).2.completed.head? =
      some { cItem with
        status := some ("missing".toList)
        timestamp := some ("2025-01-01T00:00:00".toList) } := by
  refine ⟨rfl, rfl, ?_, rfl⟩
  intro h
  cases h

/-- **C4 (amended).** For every cancelled download outcome the worker
records no durable failure — the catalog is returned unchanged, so
`downloadAttempts`, `retryAfter`, `lastError` and `status` of every row
are untouched — but the item is **not** returned to `pending`: the worker
removes it from `current` and prepends it to `completed` with status
`missing`; `pending` is left exactly as it was. -/
theorem C4_cancelled_not_durable (nfkd : Str → Str)
    (db : Option (List TrackRow)) (error_reason downloaded_path : Option Str)
    (item : QItem) (q : LiveQueue) (now : Int) (ts : Str) :
    (processOutcome nfkd db false true error_reason downloaded_path item q
        now ts).1 = db
    ∧ (processOutcome nfkd db false true error_reason downloaded_path item q
        now ts).2.pending = q.pending
    ∧ (processOutcome nfkd db false true error_reason downloaded_path item q
        now ts).2.completed =
      { item with
        status := some ("missing".toList)
        timestamp := some ts } :: q.completed
    ∧ (processOutcome nfkd db false true error_reason downloaded_path item q
        now ts).2.current =
      q.current.filter fun c => decide (qkey nfkd c ≠ qkey nfkd item) := by
  exact ⟨rfl, rfl, rfl, rfl⟩

/-- **C8 (counterexample).** Queue disjointness is *not* preserved by
every queue operation: `set_live_pending_queue` replaces `pending`
wholesale without excluding identities that are currently in `current`
(this is exactly what `reconcile_catalog` does while a download is in
flight, since the downloading row still has catalog status `missing`).
Starting from a disjoint queue whose only current item is `cItem`,
rebuilding pending with `[cItem]` puts the same identity in both. -/
theorem C8_counterexample :
    QueueDisjoint id cQueue
    ∧ ¬QueueDisjoint id (set_live_pending_queue [cItem] cQueue) := by
  constructor
  · intro c hc p hp
    simp [cQueue, live_move_to_current, set_live_pending_queue] at hp
  · intro h
    have hc : { cItem with progress := some 0 } ∈
        (set_live_pending_queue [cItem] cQueue).current := by
      simp [cQueue, live_move_to_current, set_live_pending_queue]
    have hp : cItem ∈ (set_live_pending_queue [cItem] cQueue).pending := by
      simp [set_live_pending_queue]
    exact h _ hc cItem hp rfl

/-- **C8 (amended).** `live_move_to_current` and `live_complete_item`
preserve queue disjointness (the former removes the moved identity from
`pending`, the latter only shrinks `current`); `set_live_pending_queue`
establishes it only when the supplied items' identities are disjoint from
`current` — a reconciliation rebuild can reintroduce a currently
downloading identity into `pending`. -/
theorem C8_disjointness (nfkd : Str → Str) (q : LiveQueue) (item : QItem)
    (items : List QItem) (success : Bool) (ts : Str) :
    (QueueDisjoint nfkd q →
      QueueDisjoint nfkd (live_move_to_current nfkd item q))
    ∧ (QueueDisjoint nfkd q →
      QueueDisjoint nfkd (live_complete_item nfkd item success ts q))
    ∧ ((∀ p ∈ items, ∀ c ∈ q.current, qkey nfkd c ≠ qkey nfkd p) →
      QueueDisjoint nfkd (set_live_pending_queue items q)) := by
  refine ⟨?_, ?_, ?_⟩
  · intro h c hc p hp
    have hp' := List.mem_filter.mp hp
    rcases List.mem_append.mp hc with hc' | hc'
    · exact h c hc' p hp'.1
    · have : c = { item with progress := some 0 } := by simpa using hc'
      subst this
      have hkey : qkey nfkd { item with progress := some 0 } = qkey nfkd item := rfl
      rw [hkey]
      intro hcontra
      have hne : qkey nfkd p ≠ qkey nfkd item := by simpa using hp'.2
      exact hne hcontra.symm
  · intro h c hc p hp
    exact h c (List.mem_filter.mp hc).1 p hp
  · intro h c hc p hp
    exact h p hp c hc

/-- Witness for C8's amended statement at a concrete queue. -/
theorem C8_witness :
    QueueDisjoint id (live_move_to_current id cItem
      (set_live_pending_queue [cItem] ⟨[], [], []⟩)) :=
  (C8_disjointness id (set_live_pending_queue [cItem] ⟨[], [], []⟩) cItem []
    false []).1 (by intro c hc p hp; simp [set_live_pending_queue] at hc)

/-! ### Single-flight sync lock (`sync_lock.py`, `SyncService.run_once`)

The lock's process-wide state: `lockFree` models `_lock` (its blocking
acquire reduced to a test, since every acquire in the source is
non-blocking), `busy` models `_busy`, and `holders` records the threads
currently inside a sync cycle that entered through the lock.  `run_once`
executes its body only when the context manager yields `True`. -/

structure SyncLockState where
  lockFree : Bool
  busy : Bool
  holders : List Nat
deriving DecidableEq

/-- The initial module state (`_lock` free, `_busy = False`). -/
def syncLockInit : SyncLockState := ⟨true, false, []⟩

/-- Thread `t` runs `run_once`: `acquired = _lock.acquire(blocking=False)`;
if `not acquired or _busy` the generator yields `False` and `run_once`
returns `False` at once (the `finally` block releasing only when
`acquired and _busy`); otherwise `_busy` is set and the sync body runs.
Returns the new state and `run_once`'s immediate result (`False` = not
acquired). -/
def sync_lock_enter (t : Nat) (s : SyncLockState) : SyncLockState × Bool :=
  if ¬s.lockFree ∨ s.busy then
    (if s.lockFree ∧ s.busy then { s with busy := false } else s, false)
  else
    ({ lockFree := false, busy := true, holders := t :: s.holders }, true)

/-- Thread `t` finishes its sync cycle: the context manager's `finally`
clears `_busy` and releases the lock (when still busy). -/
def sync_lock_exit (t : Nat) (s : SyncLockState) : SyncLockState :=
  if t ∈ s.holders then
    if s.busy then
      { lockFree := true, busy := false, holders := s.holders.erase t }
    else { s with holders := s.holders.erase t }
  else s

/-- States reachable from the initial lock state by any interleaving of
entries and exits. -/
inductive SyncLockReach : SyncLockState → Prop
  | init : SyncLockReach syncLockInit
  | enter (t : Nat) {s : SyncLockState} :
      SyncLockReach s → SyncLockReach (sync_lock_enter t s).1
  | exit (t : Nat) {s : SyncLockState} :
      SyncLockReach s → SyncLockReach (sync_lock_exit t s)

/-- The inductive invariant of the lock. -/
def SyncLockInv (s : SyncLockState) : Prop :=
  s.holders.length ≤ 1
  ∧ (s.busy = false → s.holders = [])
  ∧ (s.lockFree = true → s.holders = [])
  ∧ (s.busy = true → s.lockFree = false)

theorem syncLockInv_init : SyncLockInv syncLockInit := by
  refine ⟨by simp [syncLockInit], by simp [syncLockInit], by simp [syncLockInit], ?_⟩
  intro h
  simp [syncLockInit] at h

theorem syncLockInv_enter (t : Nat) {s : SyncLockState} (hs : SyncLockInv s) :
    SyncLockInv (sync_lock_enter t s).1 := by
  obtain ⟨hlen, hbusy, hfree, hbf⟩ := hs
  unfold sync_lock_enter
  by_cases hcond : ¬s.lockFree = true ∨ s.busy = true
  · rw [if_pos hcond]
    by_cases hboth : s.lockFree = true ∧ s.busy = true
    · exact absurd (hbf hboth.2) (by simp [hboth.1])
    · rw [if_neg hboth]
      exact ⟨hlen, hbusy, hfree, hbf⟩
  · rw [if_neg hcond]
    push_neg at hcond
    have hfree' : s.lockFree = true := by simpa using hcond.1
    rw [hfree _ ]
    · exact ⟨by simp, by simp, by simp, fun _ => rfl⟩
    · exact hfree'

theorem syncLockInv_exit (t : Nat) {s : SyncLockState} (hs : SyncLockInv s) :
    SyncLockInv (sync_lock_exit t s) := by
  obtain ⟨hlen, hbusy, hfree, hbf⟩ := hs
  unfold sync_lock_exit
  by_cases hmem : t ∈ s.holders
  · rw [if_pos hmem]
    by_cases hb : s.busy = true
    · rw [if_pos hb]
      have hone : s.holders = [t] := by
        cases hh : s.holders with
        | nil => rw [hh] at hmem; simp at hmem
        | cons a rest =>
          rw [hh] at hlen hmem
          have : rest = [] := by
            simp only [List.length_cons] at hlen
            exact List.length_eq_zero.mp (by omega)
          subst this
          simp only [List.mem_singleton] at hmem
          rw [hmem]
      refine ⟨?_, fun _ => ?_, fun _ => ?_, ?_⟩
      · simp [hone]
      · simp [hone]
      · simp [hone]
      · intro hc
        simp at hc
    · have hb' : s.busy = false := by revert hb; cases s.busy <;> simp
      rw [if_neg (by simp [hb'])]
      rw [hbusy hb'] at hmem
      simp at hmem
  · rw [if_neg hmem]
    exact ⟨hlen, hbusy, hfree, hbf⟩

theorem syncLockReach_inv {s : SyncLockState} (h : SyncLockReach s) :
    SyncLockInv s := by
  induction h with
  | init => exact syncLockInv_init
  | enter t _ ih => exact syncLockInv_enter t ih
  | exit t _ ih => exact syncLockInv_exit t ih

/-- **C6.** The sync lock is single-flight and non-blocking: in every
reachable state at most one thread holds the lock inside a sync cycle,
and any `run_once` that arrives while the lock is busy returns `False`
immediately with the state unchanged — no part of a sync cycle runs (the
entry is a pure test-and-return; the source's acquire is
`blocking=False`, so no waiting is modelled anywhere). -/
theorem C6_single_flight {s : SyncLockState} (hs : SyncLockReach s) :
    s.holders.length ≤ 1
    ∧ ∀ t : Nat, s.busy = true → sync_lock_enter t s = (s, false) := by
  have hinv := syncLockReach_inv hs
  refine ⟨hinv.1, fun t hbusy => ?_⟩
  have hnotfree : s.lockFree = false := hinv.2.2.2 hbusy
  unfold sync_lock_enter
  rw [if_pos (Or.inr hbusy), if_neg (by simp [hnotfree])]

/-- Witness for C6: after one thread enters, a second entry attempt
returns `False` without altering the state, and at most one thread holds
the lock. -/
theorem C6_witness :
    ((sync_lock_enter 0 syncLockInit).1.holders.length ≤ 1
      ∧ ∀ t : Nat, (sync_lock_enter 0 syncLockInit).1.busy = true →
          sync_lock_enter t (sync_lock_enter 0 syncLockInit).1 =
            ((sync_lock_enter 0 syncLockInit).1, false))
    ∧ sync_lock_enter 1 (sync_lock_enter 0 syncLockInit).1 =
        ((sync_lock_enter 0 syncLockInit).1, false) := by
  have h := C6_single_flight (SyncLockReach.enter 0 SyncLockReach.init)
  exact ⟨h, h.2 1 rfl⟩

/-! ### Path-template regex (`utils/path_template.py`)

A user template is embedded as its token decomposition: literal runs and
`{var}` occurrences.  `to_path_regex` escapes the literals and turns each
`{var}` into a non-greedy named capture `(?P<var>.+?)` — except `{ext}`,
which becomes the greedy `(?P<ext>[^/]+)` — anchored to the whole path.
`matchToks` is the backtracking semantics of exactly that regex shape:
literals must match verbatim; a lazy group prefers the shortest capture
(of non-newline characters, at least one); the greedy `[^/]+` prefers the
longest run of non-`/` characters. -/

inductive TVar
  | artist
  | album
  | title
  | ext
deriving DecidableEq

inductive Tok
  | lit (l : Str)
  | var (v : TVar)
deriving DecidableEq

abbrev Caps := List (TVar × Str)

/-- Backtracking search for a lazy group `(?P<v>.+?)` followed by the
continuation: try the shortest non-empty capture first; `.` does not
match a newline. -/
def lazyCaps (cont : Str → Option Caps) : Str → Str → Option (Str × Caps)
  | _, [] => none
  | acc, c :: rest =>
    if c = '\n' then none
    else match cont rest with
      | some caps => some (acc ++ [c], caps)
      | none => lazyCaps cont (acc ++ [c]) rest

/-- Length of the maximal prefix without `/` (what `[^/]+` can span). -/
def nonSlashRun : Str → Nat
  | [] => 0
  | c :: rest => if c = '/' then 0 else nonSlashRun rest + 1

/-- Backtracking search for the greedy `(?P<ext>[^/]+)`: longest capture
first. -/
def greedyTry (cont : Str → Option Caps) (s : Str) : Nat → Option (Str × Caps)
  | 0 => none
  | k + 1 =>
    match cont (s.drop (k + 1)) with
    | some caps => some (s.take (k + 1), caps)
    | none => greedyTry cont s k

/-- Matching the derived, anchored path regex against a relative path. -/
def matchToks : List Tok → Str → Option Caps
  | [], s => if s = [] then some [] else none
  | Tok.lit l :: ts, s =>
    if l.isPrefixOf s then matchToks ts (s.drop l.length) else none
  | Tok.var TVar.ext :: ts, s =>
    (greedyTry (matchToks ts) s (nonSlashRun s)).map fun pr =>
      (TVar.ext, pr.1) :: pr.2
  | Tok.var v :: ts, s =>
    (lazyCaps (matchToks ts) [] s).map fun pr => (v, pr.1) :: pr.2

/-- Rendering the template with field values. -/
def render_template : List Tok → Str → Str → Str → Str → Str
  | [], _, _, _, _ => []
  | Tok.lit l :: ts, a, b, t, e => l ++ render_template ts a b t e
  | Tok.var TVar.artist :: ts, a, b, t, e => a ++ render_template ts a b t e
  | Tok.var TVar.album :: ts, a, b, t, e => b ++ render_template ts a b t e
  | Tok.var TVar.title :: ts, a, b, t, e => t ++ render_template ts a b t e
  | Tok.var TVar.ext :: ts, a, b, t, e => e ++ render_template ts a b t e

/-- Two consecutive dots (the `..` that validation rejects). -/
def hasDotDot : Str → Bool
  | [] => false
  | '.' :: '.' :: _ => true
  | _ :: rest => hasDotDot rest

/-- `validate_user_template` on the token form: relative (no leading
separator), no `..` in a literal, and `{ext}` present (every `{var}` in
the token form is in the allowed set by construction). -/
def template_valid (toks : List Tok) : Bool :=
  (toks.any fun tk => decide (tk = Tok.var TVar.ext)) &&
  (toks.all fun tk =>
    match tk with
    | Tok.lit l => !hasDotDot l
    | Tok.var _ => true) &&
  (match toks.head? with
   | some (Tok.lit ('/' :: _)) => false
   | _ => true)

/-- The (validated) template `{artist}/{album}/{title}.{ext}`. -/
def tmplEx : List Tok :=
  [Tok.var TVar.artist, Tok.lit ['/'], Tok.var TVar.album, Tok.lit ['/'],
   Tok.var TVar.title, Tok.lit ['.'], Tok.var TVar.ext]

/-- **C5 (counterexample).** The round trip fails when the title contains
a dot, even though none of the fields contain a path separator: the
non-greedy `{title}` capture stops at the first `.`, so matching
`x/y/a.b.mp3` (rendered from title `a.b`, ext `mp3`) succeeds but yields
title `a` and ext `b.mp3` — different fields, also under normalisation. -/
theorem C5_counterexample :
    template_valid tmplEx = true
    ∧ matchToks tmplEx
        (render_template tmplEx ("x".toList) ("y".toList) ("a.b".toList)
          ("mp3".toList)) =
      some [(TVar.artist, "x".toList), (TVar.album, "y".toList),
        (TVar.title, "a".toList), (TVar.ext, "b.mp3".toList)]
    ∧ normalize_text id ("a".toList) ≠ normalize_text id ("a.b".toList) := by
  refine ⟨by decide, by decide, by decide⟩

theorem nonSlashRun_eq_length {E : Str} (h : '/' ∉ E) :
    nonSlashRun E = E.length := by
  induction E with
  | nil => rfl
  | cons c rest ih =>
    unfold nonSlashRun
    rw [if_neg (show ¬(c = '/') by
      intro hc
      apply h
      rw [hc]
      exact List.mem_cons_self _ _)]
    rw [ih fun hm => h (List.mem_cons_of_mem c hm)]
    rfl

theorem matchToks_ext_end {E : Str} (hne : E ≠ []) (hs : '/' ∉ E) :
    matchToks [Tok.var TVar.ext] E = some [(TVar.ext, E)] := by
  have hrun : nonSlashRun E = E.length := nonSlashRun_eq_length hs
  cases E with
  | nil => exact absurd rfl hne
  | cons c rest =>
    show (greedyTry (matchToks []) (c :: rest) (nonSlashRun (c :: rest))).map _ = _
    rw [hrun]
    have hlen : (c :: rest).length = rest.length + 1 := rfl
    rw [hlen]
    have hdrop : (c :: rest).drop (rest.length + 1) = [] := by
      rw [← hlen]
      exact List.drop_length _
    have htake : (c :: rest).take (rest.length + 1) = c :: rest := by
      rw [← hlen]
      exact List.take_length _
    simp only [greedyTry, hdrop, htake]
    simp [matchToks]

theorem lazyCaps_cons (cont : Str → Option Caps) (acc : Str) (c2 : Char)
    (s : Str) (h : ¬(c2 = '\n')) :
    lazyCaps cont acc (c2 :: s) =
      match cont s with
      | some caps => some (acc ++ [c2], caps)
      | none => lazyCaps cont (acc ++ [c2]) s := by
  simp [lazyCaps, h]

theorem lazyCaps_exact (c : Char) (ts : List Tok) (rest : Str) (caps : Caps)
    (hcont : matchToks ts rest = some caps) :
    ∀ (A acc : Str), A ≠ [] → c ∉ A → '\n' ∉ A →
      lazyCaps (matchToks (Tok.lit [c] :: ts)) acc (A ++ c :: rest) =
        some (acc ++ A, caps) := by
  intro A
  induction A with
  | nil => intro acc h; exact absurd rfl h
  | cons a A' ih =>
    intro acc _ hc hnl
    have ha : ¬(a = '\n') := by
      intro h
      apply hnl
      rw [h]
      exact List.mem_cons_self _ _
    cases A' with
    | nil =>
      rw [List.cons_append, lazyCaps_cons _ _ _ _ ha]
      have hcont' : matchToks (Tok.lit [c] :: ts) ([] ++ c :: rest) =
          some caps := by
        show (if [c].isPrefixOf (c :: rest) then
          matchToks ts ((c :: rest).drop 1) else none) = some caps
        rw [if_pos (by simp [List.isPrefixOf])]
        simpa using hcont
      rw [hcont']
    | cons a' A'' =>
      have hca' : ¬(c = a') := by
        intro h
        apply hc
        rw [h]
        exact List.mem_cons_of_mem a (List.mem_cons_self a' A'')
      rw [List.cons_append, lazyCaps_cons _ _ _ _ ha]
      have hfail : matchToks (Tok.lit [c] :: ts) ((a' :: A'') ++ c :: rest) =
          none := by
        have hpre : [c].isPrefixOf ((a' :: A'') ++ c :: rest) = false := by
          rw [List.cons_append]
          simp only [List.isPrefixOf, Bool.and_eq_false_iff]
          left
          simpa using hca'
        show (if [c].isPrefixOf ((a' :: A'') ++ c :: rest) then
          matchToks ts (((a' :: A'') ++ c :: rest).drop 1) else none) = none
        rw [hpre]
        simp
      rw [hfail]
      rw [ih (acc ++ [a]) (by simp)
        (fun hm => hc (List.mem_cons_of_mem a hm))
        (fun hm => hnl (List.mem_cons_of_mem a hm))]
      simp

theorem matchToks_var_lazy (v : TVar) (hv : v ≠ TVar.ext) (ts : List Tok)
    (s : Str) :
    matchToks (Tok.var v :: ts) s =
      (lazyCaps (matchToks ts) [] s).map fun pr => (v, pr.1) :: pr.2 := by
  cases v with
  | artist => rfl
  | album => rfl
  | title => rfl
  | ext => exact absurd rfl hv

/-- **C5 (amended).** The round trip holds for the validated template
`{artist}/{album}/{title}.{ext}` when the fields are non-empty and free
of path separators, the lazy-captured fields (`artist`, `album`, `title`)
contain no newline, and in addition the `title` contains no `.` (the
literal that follows its non-greedy capture); the match then returns
exactly the original four fields, with no normalisation needed.  (The
repository's default template `{artist}/{album}/{artist} - {title}.{ext}`
repeats `{artist}`, and a pattern with two groups named `artist` is not
even a compilable Python regex.) -/
theorem C5_template_roundtrip (A B T E : Str)
    (hA1 : A ≠ []) (hA2 : '/' ∉ A) (hA3 : '\n' ∉ A)
    (hB1 : B ≠ []) (hB2 : '/' ∉ B) (hB3 : '\n' ∉ B)
    (hT1 : T ≠ []) (_hT2 : '/' ∉ T) (hT3 : '\n' ∉ T) (hT4 : '.' ∉ T)
    (hE1 : E ≠ []) (hE2 : '/' ∉ E) :
    matchToks tmplEx (render_template tmplEx A B T E) =
      some [(TVar.artist, A), (TVar.album, B), (TVar.title, T),
        (TVar.ext, E)] := by
  have hrender : render_template tmplEx A B T E =
      A ++ '/' :: (B ++ '/' :: (T ++ '.' :: E)) := by
    simp [tmplEx, render_template]
  have h3 : matchToks [Tok.var TVar.ext] E = some [(TVar.ext, E)] :=
    matchToks_ext_end hE1 hE2
  have h2 : matchToks [Tok.var TVar.title, Tok.lit ['.'], Tok.var TVar.ext]
      (T ++ '.' :: E) = some [(TVar.title, T), (TVar.ext, E)] := by
    rw [matchToks_var_lazy TVar.title (by simp) _ _,
      lazyCaps_exact '.' [Tok.var TVar.ext] E [(TVar.ext, E)] h3 T [] hT1 hT4 hT3]
    simp
  have h1 : matchToks [Tok.var TVar.album, Tok.lit ['/'], Tok.var TVar.title,
      Tok.lit ['.'], Tok.var TVar.ext] (B ++ '/' :: (T ++ '.' :: E)) =
      some [(TVar.album, B), (TVar.title, T), (TVar.ext, E)] := by
    rw [matchToks_var_lazy TVar.album (by simp) _ _,
      lazyCaps_exact '/' [Tok.var TVar.title, Tok.lit ['.'], Tok.var TVar.ext]
        (T ++ '.' :: E) [(TVar.title, T), (TVar.ext, E)] h2 B [] hB1 hB2 hB3]
    simp
  rw [hrender]
  unfold tmplEx
  rw [matchToks_var_lazy TVar.artist (by simp) _ _,
    lazyCaps_exact '/' [Tok.var TVar.album, Tok.lit ['/'], Tok.var TVar.title,
      Tok.lit ['.'], Tok.var TVar.ext] (B ++ '/' :: (T ++ '.' :: E))
      [(TVar.album, B), (TVar.title, T), (TVar.ext, E)] h1 A [] hA1 hA2 hA3]
  simp

/-- Witness for C5's amended round trip at concrete fields. -/
theorem C5_witness :
    (("Queen".toList : Str) ≠ [] ∧ '/' ∉ ("Queen".toList : Str)
      ∧ '\n' ∉ ("Queen".toList : Str))
    ∧ matchToks tmplEx (render_template tmplEx ("Queen".toList)
        ("Opera".toList) ("Song".toList) ("mp3".toList)) =
      some [(TVar.artist, "Queen".toList), (TVar.album, "Opera".toList),
        (TVar.title, "Song".toList), (TVar.ext, "mp3".toList)] :=
  ⟨by decide,
   C5_template_roundtrip ("Queen".toList) ("Opera".toList) ("Song".toList)
     ("mp3".toList) (by decide) (by decide) (by decide) (by decide) (by decide)
     (by decide) (by decide) (by decide) (by decide) (by decide) (by decide)
     (by decide)⟩

end YouSpotter
